import Mathlib

/-!
Shallow embedding of `src/undirected_graph.py` (SekaiArendelle/undirected_graph_py).

Python `dict`s preserve insertion order, so each dict is modelled as an
association list `List (κ × ν)`: assignment to an existing key updates the
entry in place (keeping its position), assignment to a fresh key appends at
the end, `pop` removes the entry, and iteration is list order.

The graph state mirrors the two fields of the Python class
`UndirectedGraph`: the adjacency list `_adjacency_list :
Dict[_Node, Dict[_Node, _Edge]]` and the cached counter `_count_edges : int`
(modelled as `Int`, since Python integers are signed and the code asserts
non-negativity rather than guaranteeing it by type).

Mutating methods return the state after the call together with
`Option PyErr`: `some e` models the method raising exception `e`, and the
returned state is the state at the moment of the raise, so atomicity
("no mutation before a raise") is a provable property of the embedding, not
a definitional triviality.  Python `assert` failures are modelled by the
distinguished error `PyErr.assertionError`.
-/

set_option autoImplicit false
set_option linter.unusedSectionVars false

namespace UGraphPy

/-- Keys of an association list, in order. -/
def keysA {κ ν : Type} (l : List (κ × ν)) : List κ :=
  l.map Prod.fst

/-- Dict lookup: value at the first (unique, for a real dict) occurrence of a key. -/
def lookupA {κ ν : Type} [DecidableEq κ] : List (κ × ν) → κ → Option ν
  | [], _ => none
  | (k, v) :: tl, a => if a = k then some v else lookupA tl a

/-- Dict assignment `d[k] = v`: update in place when the key is present
(keeping its position, as CPython does), append at the end otherwise. -/
def insertA {κ ν : Type} [DecidableEq κ] : List (κ × ν) → κ → ν → List (κ × ν)
  | [], a, b => [(a, b)]
  | (k, v) :: tl, a, b => if a = k then (k, b) :: tl else (k, v) :: insertA tl a b

/-- Dict `d.pop(k)`: remove the entry for a key (no-op when absent; the
Python code only pops keys it has checked are present). -/
def eraseA {κ ν : Type} [DecidableEq κ] : List (κ × ν) → κ → List (κ × ν)
  | [], _ => []
  | (k, v) :: tl, a => if a = k then tl else (k, v) :: eraseA tl a

section AssocLemmas

variable {κ ν : Type} [DecidableEq κ]

@[simp] theorem keysA_nil {ν : Type} : keysA ([] : List (κ × ν)) = [] := rfl

@[simp] theorem keysA_cons {ν : Type} (p : κ × ν) (tl : List (κ × ν)) :
    keysA (p :: tl) = p.1 :: keysA tl := rfl

@[simp] theorem lookupA_nil (a : κ) : lookupA ([] : List (κ × ν)) a = none := rfl

@[simp] theorem lookupA_cons (k : κ) (v : ν) (tl : List (κ × ν)) (a : κ) :
    lookupA ((k, v) :: tl) a = if a = k then some v else lookupA tl a := rfl

theorem lookupA_eq_none {l : List (κ × ν)} {a : κ} :
    lookupA l a = none ↔ a ∉ keysA l := by
  induction l with
  | nil => simp
  | cons p tl ih =>
    obtain ⟨k, v⟩ := p
    by_cases h : a = k <;> simp [h, ih]

theorem lookupA_isSome {l : List (κ × ν)} {a : κ} :
    (lookupA l a).isSome = true ↔ a ∈ keysA l := by
  induction l with
  | nil => simp
  | cons p tl ih =>
    obtain ⟨k, v⟩ := p
    by_cases h : a = k <;> simp [h, ih]

theorem lookupA_mem_keys {l : List (κ × ν)} {a : κ} {v : ν}
    (h : lookupA l a = some v) : a ∈ keysA l := by
  rw [← lookupA_isSome]
  simp [h]

@[simp] theorem lookupA_insertA_self (l : List (κ × ν)) (k : κ) (v : ν) :
    lookupA (insertA l k v) k = some v := by
  induction l with
  | nil => simp [insertA]
  | cons p tl ih =>
    obtain ⟨k', v'⟩ := p
    by_cases h : k = k' <;> simp [insertA, h, ih]

theorem lookupA_insertA_ne {a k : κ} (l : List (κ × ν)) (v : ν) (h : a ≠ k) :
    lookupA (insertA l k v) a = lookupA l a := by
  induction l with
  | nil => simp [insertA, h]
  | cons p tl ih =>
    obtain ⟨k', v'⟩ := p
    by_cases h1 : k = k'
    · subst h1
      simp [insertA, h]
    · by_cases h2 : a = k' <;> simp [insertA, h1, h2, ih]

theorem keysA_insertA_of_mem {l : List (κ × ν)} {k : κ} (v : ν)
    (h : k ∈ keysA l) : keysA (insertA l k v) = keysA l := by
  induction l with
  | nil => simp at h
  | cons p tl ih =>
    obtain ⟨k', v'⟩ := p
    by_cases h1 : k = k'
    · simp [insertA, h1]
    · simp only [keysA_cons, List.mem_cons] at h
      rcases h with h | h

      · exact absurd h h1
      · simp [insertA, h1, ih h]

theorem keysA_insertA_of_not_mem {l : List (κ × ν)} {k : κ} (v : ν)
    (h : k ∉ keysA l) : keysA (insertA l k v) = keysA l ++ [k] := by
  induction l with
  | nil => simp [insertA, keysA]
  | cons p tl ih =>
    obtain ⟨k', v'⟩ := p
    simp only [keysA_cons, List.mem_cons] at h
    push_neg at h
    simp [insertA, h.1, ih h.2]

theorem nodup_keysA_insertA {l : List (κ × ν)} {k : κ} (v : ν)
    (h : (keysA l).Nodup) : (keysA (insertA l k v)).Nodup := by
  by_cases hm : k ∈ keysA l
  · rw [keysA_insertA_of_mem v hm]
    exact h
  · rw [keysA_insertA_of_not_mem v hm]
    simp [List.nodup_append, h, hm]

theorem length_insertA_of_mem {l : List (κ × ν)} {k : κ} (v : ν)
    (h : k ∈ keysA l) : (insertA l k v).length = l.length := by
  have := keysA_insertA_of_mem v h
  have h1 : (keysA (insertA l k v)).length = (keysA l).length := by rw [this]
  simpa [keysA] using h1

theorem lookupA_eraseA_ne {a k : κ} (l : List (κ × ν)) (hnd : (keysA l).Nodup)
    (h : a ≠ k) : lookupA (eraseA l k) a = lookupA l a := by
  induction l with
  | nil => simp [eraseA]
  | cons p tl ih =>
    obtain ⟨k', v'⟩ := p
    simp only [keysA_cons, List.nodup_cons] at hnd
    by_cases h1 : k = k'
    · subst h1
      simp [eraseA, h]
    · by_cases h2 : a = k' <;> simp [eraseA, h1, h2, ih hnd.2]

theorem lookupA_eraseA_self (l : List (κ × ν)) (k : κ) (hnd : (keysA l).Nodup) :
    lookupA (eraseA l k) k = none := by
  induction l with
  | nil => simp [eraseA]
  | cons p tl ih =>
    obtain ⟨k', v'⟩ := p
    simp only [keysA_cons, List.nodup_cons] at hnd
    by_cases h1 : k = k'
    · subst h1
      simp only [eraseA, if_pos rfl]
      rw [lookupA_eq_none]
      exact hnd.1
    · simp [eraseA, h1, ih hnd.2]

theorem keysA_eraseA_subset {l : List (κ × ν)} {k a : κ}
    (h : a ∈ keysA (eraseA l k)) : a ∈ keysA l := by
  induction l with
  | nil => simp [eraseA] at h
  | cons p tl ih =>
    obtain ⟨k', v'⟩ := p
    by_cases h1 : k = k'
    · simp only [eraseA, if_pos h1] at h
      simp only [keysA_cons, List.mem_cons]
      right
      exact h
    · simp only [eraseA, if_neg h1, keysA_cons, List.mem_cons] at h
      rcases h with h | h
      · simp [h]
      · simp [ih h]

theorem nodup_keysA_eraseA {l : List (κ × ν)} (k : κ)
    (h : (keysA l).Nodup) : (keysA (eraseA l k)).Nodup := by
  induction l with
  | nil => simp [eraseA]
  | cons p tl ih =>
    obtain ⟨k', v'⟩ := p
    simp only [keysA_cons, List.nodup_cons] at h
    by_cases h1 : k = k'
    · simp [eraseA, h1, h.2]
    · simp only [eraseA, if_neg h1, keysA_cons, List.nodup_cons]
      exact ⟨fun hc => h.1 (keysA_eraseA_subset hc), ih h.2⟩

theorem length_eraseA_of_lookup {l : List (κ × ν)} {k : κ} {v : ν}
    (h : lookupA l k = some v) : (eraseA l k).length + 1 = l.length := by
  induction l with
  | nil => simp at h
  | cons p tl ih =>
    obtain ⟨k', v'⟩ := p
    by_cases h1 : k = k'
    · simp [eraseA, h1]
    · simp only [lookupA_cons, if_neg h1] at h
      simp [eraseA, h1, ih h]

theorem eraseA_of_not_mem {l : List (κ × ν)} {k : κ}
    (h : k ∉ keysA l) : eraseA l k = l := by
  induction l with
  | nil => rfl
  | cons p tl ih =>
    obtain ⟨k', v'⟩ := p
    simp only [keysA_cons, List.mem_cons] at h
    push_neg at h
    simp [eraseA, Ne.symm h.1, fun hh => h.1 hh, ih h.2]

theorem length_insertA_of_not_mem {l : List (κ × ν)} {k : κ} (v : ν)
    (h : k ∉ keysA l) : (insertA l k v).length = l.length + 1 := by
  induction l with
  | nil => simp [insertA]
  | cons p tl ih =>
    obtain ⟨k', v'⟩ := p
    simp only [keysA_cons, List.mem_cons] at h
    push_neg at h
    simp [insertA, h.1, ih h.2]

theorem mem_keysA_insertA {l : List (κ × ν)} {k a : κ} (v : ν) :
    a ∈ keysA (insertA l k v) ↔ a ∈ keysA l ∨ a = k := by
  by_cases h : k ∈ keysA l
  · rw [keysA_insertA_of_mem v h]
    constructor
    · exact Or.inl
    · rintro (h1 | h1)
      · exact h1
      · exact h1 ▸ h
  · rw [keysA_insertA_of_not_mem v h]
    simp

theorem mem_keysA_eraseA {l : List (κ × ν)} {k a : κ} (hnd : (keysA l).Nodup) :
    a ∈ keysA (eraseA l k) ↔ a ∈ keysA l ∧ a ≠ k := by
  constructor
  · intro h
    refine ⟨keysA_eraseA_subset h, ?_⟩
    rintro rfl
    have := lookupA_eraseA_self l a hnd
    rw [lookupA_eq_none] at this
    exact this h
  · rintro ⟨h1, h2⟩
    have h3 : lookupA (eraseA l k) a = lookupA l a := lookupA_eraseA_ne l hnd h2
    have h4 : (lookupA l a).isSome = true := lookupA_isSome.mpr h1
    rw [← h3] at h4
    exact lookupA_isSome.mp h4

theorem lookupA_of_mem_nodup {l : List (κ × ν)} {p : κ × ν}
    (hnd : (keysA l).Nodup) (h : p ∈ l) : lookupA l p.1 = some p.2 := by
  induction l with
  | nil => simp at h
  | cons q tl ih =>
    obtain ⟨k', v'⟩ := q
    simp only [keysA_cons, List.nodup_cons] at hnd
    rcases List.mem_cons.mp h with h1 | h1
    · subst h1
      simp
    · have hne : p.1 ≠ k' := by
        rintro he
        apply hnd.1
        rw [← he]
        exact List.mem_map_of_mem Prod.fst h1
      simp [hne, ih hnd.2 h1]

/-- Total size of all the inner dicts (`sum(len(m) for m in d.values())`). -/
def sumSizes {κ ν : Type} (l : List (κ × List ν)) : Nat :=
  (l.map (fun p => p.2.length)).sum

@[simp] theorem sumSizes_nil {ν : Type} : sumSizes ([] : List (κ × List ν)) = 0 := rfl

@[simp] theorem sumSizes_cons {ν : Type} (p : κ × List ν) (tl : List (κ × List ν)) :
    sumSizes (p :: tl) = p.2.length + sumSizes tl := rfl

theorem sumSizes_insertA_lookup {ν : Type} {l : List (κ × List ν)} {k : κ}
    {v : List ν} (w : List ν) (h : lookupA l k = some v) :
    sumSizes (insertA l k w) + v.length = sumSizes l + w.length := by
  induction l with
  | nil => simp at h
  | cons p tl ih =>
    obtain ⟨k', v'⟩ := p
    by_cases h1 : k = k'
    · subst h1
      simp at h
      subst h
      simp [insertA]
      omega
    · simp only [lookupA_cons, if_neg h1] at h
      simp only [insertA, if_neg h1, sumSizes_cons]
      have := ih h
      omega

theorem sumSizes_insertA_of_not_mem {ν : Type} {l : List (κ × List ν)} {k : κ}
    (w : List ν) (h : k ∉ keysA l) :
    sumSizes (insertA l k w) = sumSizes l + w.length := by
  induction l with
  | nil => simp [insertA]
  | cons p tl ih =>
    obtain ⟨k', v'⟩ := p
    simp only [keysA_cons, List.mem_cons] at h
    push_neg at h
    simp only [insertA, if_neg h.1, sumSizes_cons, ih h.2]
    omega

theorem sumSizes_eraseA_lookup {ν : Type} {l : List (κ × List ν)} {k : κ}
    {v : List ν} (h : lookupA l k = some v) :
    sumSizes (eraseA l k) + v.length = sumSizes l := by
  induction l with
  | nil => simp at h
  | cons p tl ih =>
    obtain ⟨k', v'⟩ := p
    by_cases h1 : k = k'
    · subst h1
      simp at h
      subst h
      simp [eraseA]
      omega
    · simp only [lookupA_cons, if_neg h1] at h
      simp only [eraseA, if_neg h1, sumSizes_cons]
      have := ih h
      omega

theorem filter_skip_le {l : List κ} {c : κ} {vis : List κ} :
    (l.filter (fun x => decide (x ∉ c :: vis))).length
      ≤ (l.filter (fun x => decide (x ∉ vis))).length := by
  apply List.Sublist.length_le
  apply List.monotone_filter_right
  intro a ha
  simp only [decide_eq_true_eq, List.mem_cons] at *
  tauto

theorem filter_skip_lt {l : List κ} {c : κ} {vis : List κ}
    (hc : c ∈ l) (hv : c ∉ vis) :
    (l.filter (fun x => decide (x ∉ c :: vis))).length
      < (l.filter (fun x => decide (x ∉ vis))).length := by
  induction l with
  | nil => simp at hc
  | cons x tl ih =>
    by_cases hxc : x = c
    · subst hxc
      have hkeep : decide (x ∉ vis) = true := by simpa using hv
      have hdrop : decide (x ∉ x :: vis) = false := by simp
      simp only [List.filter_cons, hdrop, hkeep, if_neg Bool.false_ne_true,
        if_pos rfl, List.length_cons]
      exact Nat.lt_succ_of_le filter_skip_le
    · have hc' : c ∈ tl := by
        rcases List.mem_cons.mp hc with h | h
        · exact absurd h.symm hxc
        · exact h
      by_cases hq : x ∈ vis
      · have h1 : decide (x ∉ vis) = false := by simp [hq]
        have h2 : decide (x ∉ c :: vis) = false := by simp [hq]
        simp only [List.filter_cons, h1, h2, if_neg Bool.false_ne_true]
        exact ih hc'
      · have h1 : decide (x ∉ vis) = true := by simp [hq]
        have h2 : decide (x ∉ c :: vis) = true := by simp [hxc, hq]
        simp only [List.filter_cons, h1, h2, if_pos rfl, List.length_cons]
        exact Nat.succ_lt_succ (ih hc')

end AssocLemmas

/-- The five exception classes of the module, plus `assertionError` modelling
a failing Python `assert` statement. -/
inductive PyErr where
  | invalidEdge
  | nodeExists
  | nodeNotExists
  | edgeExists
  | edgeNotExists
  | assertionError
deriving DecidableEq, Repr

/-- State of a Python `UndirectedGraph` object: the two instance fields. -/
structure UndirectedGraph (α β : Type) where
  adjacency_list : List (α × List (α × β))
  count_edges_f : Int
deriving DecidableEq, Repr

namespace UndirectedGraph

variable {α β : Type} [DecidableEq α] [DecidableEq β]

/-- `UndirectedGraph.__init__`. -/
def init : UndirectedGraph α β := ⟨[], 0⟩

/-- `__contains__`: `node in self._adjacency_list`. -/
def contains (g : UndirectedGraph α β) (node : α) : Bool :=
  (lookupA g.adjacency_list node).isSome

/-- `__len__`: `len(self._adjacency_list)`. -/
def len (g : UndirectedGraph α β) : Nat :=
  g.adjacency_list.length

/-- The neighbor dict of a node, `self._adjacency_list[node]`
(defaulting to empty where Python would raise `KeyError`; every use below
is guarded by a presence check, matching the source). -/
def adjOf (g : UndirectedGraph α β) (node : α) : List (α × β) :=
  (lookupA g.adjacency_list node).getD []

/-- Payload lookup `self._adjacency_list[a][b]` as an `Option`. -/
def edgeLookup (g : UndirectedGraph α β) (a b : α) : Option β :=
  (lookupA g.adjacency_list a).bind fun nb => lookupA nb b

/-- `empty`: `self._adjacency_list == {}`. -/
def empty (g : UndirectedGraph α β) : Bool :=
  g.adjacency_list = []

/-- `add_node`. -/
def add_node (g : UndirectedGraph α β) (node : α) :
    UndirectedGraph α β × Option PyErr :=
  if (lookupA g.adjacency_list node).isSome then
    (g, some .nodeExists)
  else
    (⟨insertA g.adjacency_list node [], g.count_edges_f⟩, none)

/-- One iteration of the `remove_node` loop:
`self._adjacency_list[neighbor].pop(node)` for the neighbor entry `p`. -/
def popNeighbor (node : α) (t : List (α × List (α × β))) (p : α × β) :
    List (α × List (α × β)) :=
  insertA t p.1 (eraseA ((lookupA t p.1).getD []) node)

/-- `remove_node`: pops `node` from every neighbor's dict, then decrements
the counter by the (by then unchanged) size of `node`'s own dict, then pops
`node`'s entry. -/
def remove_node (g : UndirectedGraph α β) (node : α) :
    UndirectedGraph α β × Option PyErr :=
  match lookupA g.adjacency_list node with
  | none => (g, some .nodeNotExists)
  | some nbrs =>
    let top1 := nbrs.foldl (popNeighbor node) g.adjacency_list
    let d := ((lookupA top1 node).getD []).length
    (⟨eraseA top1 node, g.count_edges_f - d⟩, none)

/-- `construct_edge`: presence checks, `EdgeExists` check, the
`assert node1 not in self._adjacency_list[node2]`, the self-loop check,
then the two symmetric writes and the counter increment. -/
def construct_edge (g : UndirectedGraph α β) (node1 node2 : α) (edge : β) :
    UndirectedGraph α β × Option PyErr :=
  match lookupA g.adjacency_list node1 with
  | none => (g, some .nodeNotExists)
  | some nb1 =>
    match lookupA g.adjacency_list node2 with
    | none => (g, some .nodeNotExists)
    | some nb2 =>
      if (lookupA nb1 node2).isSome then (g, some .edgeExists)
      else if (lookupA nb2 node1).isSome then (g, some .assertionError)
      else if node1 = node2 then (g, some .invalidEdge)
      else
        let top1 := insertA g.adjacency_list node1 (insertA nb1 node2 edge)
        let nb2' := (lookupA top1 node2).getD []
        let top2 := insertA top1 node2 (insertA nb2' node1 edge)
        (⟨top2, g.count_edges_f + 1⟩, none)

/-- `assign_edge`: note the source checks
`node1 not in self._adjacency_list[node2]` for `EdgeNotExistsError` and
asserts the mirror direction, then checks the self-loop, then overwrites
both directions (counter untouched). -/
def assign_edge (g : UndirectedGraph α β) (node1 node2 : α) (edge : β) :
    UndirectedGraph α β × Option PyErr :=
  match lookupA g.adjacency_list node1 with
  | none => (g, some .nodeNotExists)
  | some nb1 =>
    match lookupA g.adjacency_list node2 with
    | none => (g, some .nodeNotExists)
    | some nb2 =>
      if (lookupA nb2 node1).isNone then (g, some .edgeNotExists)
      else if (lookupA nb1 node2).isNone then (g, some .assertionError)
      else if node1 = node2 then (g, some .invalidEdge)
      else
        let top1 := insertA g.adjacency_list node1 (insertA nb1 node2 edge)
        let nb2' := (lookupA top1 node2).getD []
        let top2 := insertA top1 node2 (insertA nb2' node1 edge)
        (⟨top2, g.count_edges_f⟩, none)

/-- `remove_edge`: same check order as `assign_edge`, then pops both
directions and decrements the counter. -/
def remove_edge (g : UndirectedGraph α β) (node1 node2 : α) :
    UndirectedGraph α β × Option PyErr :=
  match lookupA g.adjacency_list node1 with
  | none => (g, some .nodeNotExists)
  | some nb1 =>
    match lookupA g.adjacency_list node2 with
    | none => (g, some .nodeNotExists)
    | some nb2 =>
      if (lookupA nb2 node1).isNone then (g, some .edgeNotExists)
      else if (lookupA nb1 node2).isNone then (g, some .assertionError)
      else if node1 = node2 then (g, some .invalidEdge)
      else
        let top1 := insertA g.adjacency_list node1 (eraseA nb1 node2)
        let nb2' := (lookupA top1 node2).getD []
        let top2 := insertA top1 node2 (eraseA nb2' node1)
        (⟨top2, g.count_edges_f - 1⟩, none)

/-- `has_edge`: `node1 in self._adjacency_list and node2 in self._adjacency_list[node1]`. -/
def has_edge (g : UndirectedGraph α β) (node1 node2 : α) : Bool :=
  match lookupA g.adjacency_list node1 with
  | none => false
  | some nb1 => (lookupA nb1 node2).isSome

/-- `clear`. -/
def clear (g : UndirectedGraph α β) : UndirectedGraph α β × Option PyErr :=
  ((⟨[], 0⟩ : UndirectedGraph α β), none)

/-- `count_nodes`. -/
def count_nodes (g : UndirectedGraph α β) : Nat :=
  g.adjacency_list.length

/-- `count_edges`: `assert self._count_edges >= 0` then return the field. -/
def count_edges (g : UndirectedGraph α β) : Except PyErr Int :=
  if 0 ≤ g.count_edges_f then .ok g.count_edges_f else .error .assertionError

/-- `degree`. -/
def degree (g : UndirectedGraph α β) (node : α) : Except PyErr Nat :=
  match lookupA g.adjacency_list node with
  | none => .error .nodeNotExists
  | some nb => .ok nb.length

/-- `neighbors` (as the list of keys it iterates over). -/
def neighbors (g : UndirectedGraph α β) (node : α) : Except PyErr (List α) :=
  match lookupA g.adjacency_list node with
  | none => .error .nodeNotExists
  | some nb => .ok (keysA nb)

/-- `insertion_order_node_iter`. -/
def insertion_order_node_iter (g : UndirectedGraph α β) : List α :=
  keysA g.adjacency_list

/-- `copy` in the pure value model (the aliasing content of `copy` is
treated separately in the heap model below). -/
def copy (g : UndirectedGraph α β) : UndirectedGraph α β :=
  ⟨g.adjacency_list, g.count_edges_f⟩

/-- Inner loop of `__iter__` over one node's neighbor dict, threading the
`visited_edges` set (modelled as a list of ordered pairs). -/
def iterInner (u : α) : List (α × β) → List (α × α) → List (α × α × β) × List (α × α)
  | [], vis => ([], vis)
  | (v, p) :: tl, vis =>
    if (u, v) ∈ vis then iterInner u tl vis
    else
      let r := iterInner u tl ((v, u) :: (u, v) :: vis)
      ((u, v, p) :: r.1, r.2)

/-- Outer loop of `__iter__` over the top-level dict. -/
def iterOuter : List (α × List (α × β)) → List (α × α) → List (α × α × β)
  | [], _ => []
  | (u, nbrs) :: rest, vis =>
    let r := iterInner u nbrs vis
    r.1 ++ iterOuter rest r.2

/-- `__iter__`: the list of `(node1, node2, edge)` triples the generator
yields, deduplicated through the `visited_edges` set. -/
def edgeIter (g : UndirectedGraph α β) : List (α × α × β) :=
  iterOuter g.adjacency_list []

/-- How freshly discovered neighbors join the pending worklist: pushed on a
LIFO stack for DFS (`_Stack`, pop from the right), appended to a FIFO queue
for BFS (`_Queue`).  The pending list's head is the next node popped. -/
def searchSched (dfs : Bool) (nbrs : List α) (rest : List α) : List α :=
  if dfs then nbrs.reverse ++ rest else rest ++ nbrs

/-- The `while` loop shared by `dfs_node_iter` and `bfs_node_iter`: pop the
next pending node; skip it if visited, otherwise mark, yield, and schedule
its unvisited neighbors.  Returns the yielded nodes and the final visited
set (as a list, most recent first). -/
def searchLoop (dfs : Bool) (top : List (α × List (α × β))) :
    List α → List α → List α × List α
  | visited, [] => ([], visited)
  | visited, c :: pend =>
    if c ∈ visited then searchLoop dfs top visited pend
    else
      let nbrs := (keysA ((lookupA top c).getD [])).filter
        (fun m => decide (m ∉ c :: visited))
      let r := searchLoop dfs top (c :: visited) (searchSched dfs nbrs pend)
      (c :: r.1, r.2)
termination_by visited pend =>
  (((keysA top).filter (fun x => decide (x ∉ visited))).length, pend.length)
decreasing_by
  · exact Prod.Lex.right _ (by simp)
  · by_cases hc : c ∈ keysA top
    · exact Prod.Lex.left _ _ (filter_skip_lt hc (by assumption))
    · have h1 : (keysA top).filter (fun x => decide (x ∉ c :: visited))
          = (keysA top).filter (fun x => decide (x ∉ visited)) := by
        apply List.filter_congr
        intro x hx
        have hxc : x ≠ c := fun h => hc (h ▸ hx)
        simp [hxc]
      have h2 : lookupA top c = none := lookupA_eq_none.mpr hc
      have h3 : (keysA ((lookupA top c).getD [])).filter
          (fun m => decide (m ∉ c :: visited)) = [] := by
        simp [h2]
      rw [h1, h3]
      apply Prod.Lex.right
      cases dfs <;> simp [searchSched]

/-- Outer loop of the traversals: every top-level node is tried as a root;
roots already visited by an earlier component are skipped. -/
def searchOuter (dfs : Bool) (top : List (α × List (α × β))) :
    List (α × List (α × β)) → List α → List α
  | [], _ => []
  | (root, _) :: rest, visited =>
    if root ∈ visited then searchOuter dfs top rest visited
    else
      let r := searchLoop dfs top visited [root]
      r.1 ++ searchOuter dfs top rest r.2

/-- `dfs_node_iter`: the full list of yielded nodes. -/
def dfs_node_iter (g : UndirectedGraph α β) : List α :=
  searchOuter true g.adjacency_list g.adjacency_list []

/-- `bfs_node_iter`: the full list of yielded nodes. -/
def bfs_node_iter (g : UndirectedGraph α β) : List α :=
  searchOuter false g.adjacency_list g.adjacency_list []

/-- The data-model invariant of the adjacency representation: well-formed
dicts (no duplicate keys), symmetry with identical payloads, no self-loops,
neighbor keys are themselves top-level nodes, and the cached counter is half
the total size of the neighbor dicts (hence non-negative). -/
structure Inv (g : UndirectedGraph α β) : Prop where
  nodup_top : (keysA g.adjacency_list).Nodup
  nodup_inner : ∀ a nb, lookupA g.adjacency_list a = some nb → (keysA nb).Nodup
  symm : ∀ a b p, g.edgeLookup a b = some p → g.edgeLookup b a = some p
  no_self : ∀ a, g.edgeLookup a a = none
  closed : ∀ a b nb, lookupA g.adjacency_list a = some nb →
      b ∈ keysA nb → b ∈ keysA g.adjacency_list
  counter : 2 * g.count_edges_f = (sumSizes g.adjacency_list : Int)

end UndirectedGraph

/-- The public mutating operations of the class, as one syntactic type so a
single statement can quantify over "every public operation". -/
inductive Op (α β : Type) where
  | add_node (node : α)
  | remove_node (node : α)
  | construct_edge (node1 node2 : α) (edge : β)
  | assign_edge (node1 node2 : α) (edge : β)
  | remove_edge (node1 node2 : α)
  | clear
deriving DecidableEq, Repr

variable {α β : Type} [DecidableEq α] [DecidableEq β]

/-- Run one public mutating operation: resulting state plus raised error. -/
def applyOp : Op α β → UndirectedGraph α β → UndirectedGraph α β × Option PyErr
  | .add_node n, g => g.add_node n
  | .remove_node n, g => g.remove_node n
  | .construct_edge a b e, g => g.construct_edge a b e
  | .assign_edge a b e, g => g.assign_edge a b e
  | .remove_edge a b, g => g.remove_edge a b
  | .clear, g => g.clear

/-- Graph states reachable from a fresh `UndirectedGraph()` through the
public operations (the state after a call is `(applyOp op g).1` whether or
not the call raised). -/
inductive Reachable : UndirectedGraph α β → Prop where
  | init : Reachable UndirectedGraph.init
  | step (op : Op α β) {g : UndirectedGraph α β} :
      Reachable g → Reachable (applyOp op g).1

namespace UndirectedGraph

theorem inv_init : Inv (init : UndirectedGraph α β) := by
  constructor <;> simp [init, edgeLookup, sumSizes, keysA]

theorem inv_clear (g : UndirectedGraph α β) : Inv (g.clear).1 := by
  constructor <;> simp [clear, edgeLookup, sumSizes, keysA]

section AddNode

variable {g : UndirectedGraph α β} {n : α}

theorem add_node_cases (g : UndirectedGraph α β) (n : α) :
    (g.add_node n).1 = g ∨
      (lookupA g.adjacency_list n = none ∧
        (g.add_node n).1.adjacency_list = insertA g.adjacency_list n [] ∧
        (g.add_node n).1.count_edges_f = g.count_edges_f ∧
        (g.add_node n).2 = none) := by
  unfold add_node
  by_cases h : (lookupA g.adjacency_list n).isSome
  · left
    simp [h]
  · right
    rw [Option.not_isSome_iff_eq_none] at h
    simp [h]

theorem add_node_edgeLookup (hn : lookupA g.adjacency_list n = none) (a b : α) :
    (g.add_node n).1.edgeLookup a b =
      if a = n then none else g.edgeLookup a b := by
  rcases add_node_cases g n with h | ⟨_, hadj, _, _⟩
  · rw [h]
    by_cases hab : a = n
    · subst hab
      simp [edgeLookup, hn]
    · simp [hab]
  · unfold edgeLookup
    rw [hadj]
    by_cases hab : a = n
    · subst hab
      simp [lookupA_insertA_self]
    · rw [lookupA_insertA_ne _ _ hab, if_neg hab]

theorem inv_add_node (hI : Inv g) (n : α) : Inv (g.add_node n).1 := by
  rcases add_node_cases g n with h | ⟨hn, hadj, hcnt, _⟩
  · rw [h]
    exact hI
  · have hkeys : keysA (g.add_node n).1.adjacency_list
        = keysA g.adjacency_list ++ [n] := by
      rw [hadj, keysA_insertA_of_not_mem _ (lookupA_eq_none.mp hn)]
    constructor
    · rw [hkeys]
      apply List.Nodup.append hI.nodup_top (List.nodup_singleton n)
      intro a ha hb
      rw [List.mem_singleton] at hb
      subst hb
      exact lookupA_eq_none.mp hn ha
    · intro a nb hnb
      rw [hadj] at hnb
      by_cases ha : a = n
      · subst ha
        rw [lookupA_insertA_self] at hnb
        cases hnb
        simp [keysA]
      · rw [lookupA_insertA_ne _ _ ha] at hnb
        exact hI.nodup_inner a nb hnb
    · intro a b p hab
      rw [add_node_edgeLookup hn] at hab ⊢
      by_cases ha : a = n
      · rw [if_pos ha] at hab
        cases hab
      · rw [if_neg ha] at hab
        have hsym := hI.symm a b p hab
        have hb : b ≠ n := by
          rintro rfl
          unfold edgeLookup at hsym
          rw [hn] at hsym
          cases hsym
        rw [if_neg hb]
        exact hsym
    · intro a
      rw [add_node_edgeLookup hn]
      by_cases ha : a = n
      · rw [if_pos ha]
      · rw [if_neg ha]
        exact hI.no_self a
    · intro a b nb hnb hb
      rw [hadj] at hnb
      rw [hkeys]
      by_cases ha : a = n
      · subst ha
        rw [lookupA_insertA_self] at hnb
        cases hnb
        simp [keysA] at hb
      · rw [lookupA_insertA_ne _ _ ha] at hnb
        exact List.mem_append_left _ (hI.closed a b nb hnb hb)
    · rw [hadj, hcnt]
      rw [sumSizes_insertA_of_not_mem _ (lookupA_eq_none.mp hn)]
      simpa using hI.counter

end AddNode

section ConstructEdge

variable {g : UndirectedGraph α β} {n1 n2 : α} {e : β} {nb1 nb2 : List (α × β)}

theorem construct_edge_cases (g : UndirectedGraph α β) (n1 n2 : α) (e : β) :
    (g.construct_edge n1 n2 e).1 = g ∨
      (∃ nb1 nb2,
        lookupA g.adjacency_list n1 = some nb1 ∧
        lookupA g.adjacency_list n2 = some nb2 ∧
        lookupA nb1 n2 = none ∧ lookupA nb2 n1 = none ∧ n1 ≠ n2 ∧
        (g.construct_edge n1 n2 e).2 = none) := by
  unfold construct_edge
  cases h1 : lookupA g.adjacency_list n1 with
  | none => left; rfl
  | some nb1 =>
    cases h2 : lookupA g.adjacency_list n2 with
    | none => left; rfl
    | some nb2 =>
      dsimp only
      by_cases h3 : (lookupA nb1 n2).isSome
      · left
        rw [if_pos h3]
      · by_cases h4 : (lookupA nb2 n1).isSome
        · left
          rw [if_neg h3, if_pos h4]
        · by_cases h5 : n1 = n2
          · left
            rw [if_neg h3, if_neg h4, if_pos h5]
          · right
            refine ⟨nb1, nb2, rfl, rfl,
              Option.not_isSome_iff_eq_none.mp h3,
              Option.not_isSome_iff_eq_none.mp h4, h5, ?_⟩
            rw [if_neg h3, if_neg h4, if_neg h5]

theorem construct_edge_adj
    (h1 : lookupA g.adjacency_list n1 = some nb1)
    (h2 : lookupA g.adjacency_list n2 = some nb2)
    (h3 : lookupA nb1 n2 = none) (h4 : lookupA nb2 n1 = none)
    (h5 : n1 ≠ n2) :
    (g.construct_edge n1 n2 e).1.adjacency_list
        = insertA (insertA g.adjacency_list n1 (insertA nb1 n2 e)) n2
            (insertA nb2 n1 e) ∧
      (g.construct_edge n1 n2 e).1.count_edges_f = g.count_edges_f + 1 ∧
      (g.construct_edge n1 n2 e).2 = none := by
  have hre : lookupA (insertA g.adjacency_list n1 (insertA nb1 n2 e)) n2
      = some nb2 := by
    rw [lookupA_insertA_ne _ _ (Ne.symm h5)]
    exact h2
  unfold construct_edge
  rw [h1, h2]
  simp [h3, h4, h5, hre]

theorem construct_edge_lookup
    (h1 : lookupA g.adjacency_list n1 = some nb1)
    (h2 : lookupA g.adjacency_list n2 = some nb2)
    (h3 : lookupA nb1 n2 = none) (h4 : lookupA nb2 n1 = none)
    (h5 : n1 ≠ n2) (x : α) :
    lookupA (g.construct_edge n1 n2 e).1.adjacency_list x =
      if x = n2 then some (insertA nb2 n1 e)
      else if x = n1 then some (insertA nb1 n2 e)
      else lookupA g.adjacency_list x := by
  rw [(construct_edge_adj (e := e) h1 h2 h3 h4 h5).1]
  by_cases hx2 : x = n2
  · subst hx2
    simp
  · rw [lookupA_insertA_ne _ _ hx2, if_neg hx2]
    by_cases hx1 : x = n1
    · subst hx1
      simp
    · rw [lookupA_insertA_ne _ _ hx1, if_neg hx1]

theorem construct_edge_edgeLookup
    (h1 : lookupA g.adjacency_list n1 = some nb1)
    (h2 : lookupA g.adjacency_list n2 = some nb2)
    (h3 : lookupA nb1 n2 = none) (h4 : lookupA nb2 n1 = none)
    (h5 : n1 ≠ n2) (a b : α) :
    (g.construct_edge n1 n2 e).1.edgeLookup a b =
      if a = n1 ∧ b = n2 ∨ a = n2 ∧ b = n1 then some e
      else g.edgeLookup a b := by
  unfold edgeLookup
  rw [construct_edge_lookup h1 h2 h3 h4 h5]
  by_cases ha2 : a = n2
  · rw [if_pos ha2]
    by_cases hb1 : b = n1
    · have hcond : a = n1 ∧ b = n2 ∨ a = n2 ∧ b = n1 := Or.inr ⟨ha2, hb1⟩
      rw [if_pos hcond, hb1]
      simp
    · have hcond : ¬(a = n1 ∧ b = n2 ∨ a = n2 ∧ b = n1) := by
        rintro (⟨hh, _⟩ | ⟨_, hh⟩)
        · exact h5 (hh.symm.trans ha2)
        · exact hb1 hh
      rw [if_neg hcond, ha2, h2]
      simp [lookupA_insertA_ne _ _ hb1]
  · rw [if_neg ha2]
    by_cases ha1 : a = n1
    · rw [if_pos ha1]
      by_cases hb2 : b = n2
      · have hcond : a = n1 ∧ b = n2 ∨ a = n2 ∧ b = n1 := Or.inl ⟨ha1, hb2⟩
        rw [if_pos hcond, hb2]
        simp
      · have hcond : ¬(a = n1 ∧ b = n2 ∨ a = n2 ∧ b = n1) := by
          rintro (⟨_, hh⟩ | ⟨hh, _⟩)
          · exact hb2 hh
          · exact ha2 hh
        rw [if_neg hcond, ha1, h1]
        simp [lookupA_insertA_ne _ _ hb2]
    · have hcond : ¬(a = n1 ∧ b = n2 ∨ a = n2 ∧ b = n1) := by
        rintro (⟨hh, _⟩ | ⟨hh, _⟩)
        · exact ha1 hh
        · exact ha2 hh
      rw [if_neg ha1, if_neg hcond]

theorem construct_edge_keys
    (h1 : lookupA g.adjacency_list n1 = some nb1)
    (h2 : lookupA g.adjacency_list n2 = some nb2)
    (h3 : lookupA nb1 n2 = none) (h4 : lookupA nb2 n1 = none)
    (h5 : n1 ≠ n2) :
    keysA (g.construct_edge n1 n2 e).1.adjacency_list
      = keysA g.adjacency_list := by
  rw [(construct_edge_adj (e := e) h1 h2 h3 h4 h5).1]
  rw [keysA_insertA_of_mem, keysA_insertA_of_mem]
  · exact lookupA_mem_keys h1
  · rw [keysA_insertA_of_mem _ (lookupA_mem_keys h1)]
    exact lookupA_mem_keys h2

theorem construct_edge_sumSizes
    (h1 : lookupA g.adjacency_list n1 = some nb1)
    (h2 : lookupA g.adjacency_list n2 = some nb2)
    (h3 : lookupA nb1 n2 = none) (h4 : lookupA nb2 n1 = none)
    (h5 : n1 ≠ n2) :
    sumSizes (g.construct_edge n1 n2 e).1.adjacency_list
      = sumSizes g.adjacency_list + 2 := by
  rw [(construct_edge_adj (e := e) h1 h2 h3 h4 h5).1]
  have e1 : sumSizes (insertA g.adjacency_list n1 (insertA nb1 n2 e))
      + nb1.length = sumSizes g.adjacency_list + (insertA nb1 n2 e).length :=
    sumSizes_insertA_lookup _ h1
  rw [length_insertA_of_not_mem _ (lookupA_eq_none.mp h3)] at e1
  have hre : lookupA (insertA g.adjacency_list n1 (insertA nb1 n2 e)) n2
      = some nb2 := by
    rw [lookupA_insertA_ne _ _ (Ne.symm h5)]
    exact h2
  have e2 : sumSizes (insertA (insertA g.adjacency_list n1 (insertA nb1 n2 e))
        n2 (insertA nb2 n1 e)) + nb2.length
      = sumSizes (insertA g.adjacency_list n1 (insertA nb1 n2 e))
        + (insertA nb2 n1 e).length :=
    sumSizes_insertA_lookup _ hre
  rw [length_insertA_of_not_mem _ (lookupA_eq_none.mp h4)] at e2
  omega

theorem inv_construct_edge (hI : Inv g) (n1 n2 : α) (e : β) :
    Inv (g.construct_edge n1 n2 e).1 := by
  rcases construct_edge_cases g n1 n2 e with h | ⟨nb1, nb2, h1, h2, h3, h4, h5, _⟩
  · rw [h]
    exact hI
  · constructor
    · rw [construct_edge_keys (e := e) h1 h2 h3 h4 h5]
      exact hI.nodup_top
    · intro a nb hnb
      rw [construct_edge_lookup (e := e) h1 h2 h3 h4 h5] at hnb
      by_cases ha2 : a = n2
      · rw [if_pos ha2] at hnb
        cases hnb
        exact nodup_keysA_insertA _ (hI.nodup_inner n2 nb2 h2)
      · rw [if_neg ha2] at hnb
        by_cases ha1 : a = n1
        · rw [if_pos ha1] at hnb
          cases hnb
          exact nodup_keysA_insertA _ (hI.nodup_inner n1 nb1 h1)
        · rw [if_neg ha1] at hnb
          exact hI.nodup_inner a nb hnb
    · intro a b p hab
      rw [construct_edge_edgeLookup h1 h2 h3 h4 h5] at hab ⊢
      by_cases hc : a = n1 ∧ b = n2 ∨ a = n2 ∧ b = n1
      · have hc' : b = n1 ∧ a = n2 ∨ b = n2 ∧ a = n1 := by tauto
        rw [if_pos hc] at hab
        rw [if_pos hc']
        exact hab
      · have hc' : ¬(b = n1 ∧ a = n2 ∨ b = n2 ∧ a = n1) := by tauto
        rw [if_neg hc] at hab
        rw [if_neg hc']
        exact hI.symm a b p hab
    · intro a
      rw [construct_edge_edgeLookup h1 h2 h3 h4 h5]
      have hc : ¬(a = n1 ∧ a = n2 ∨ a = n2 ∧ a = n1) := by
        rintro (⟨hx, hy⟩ | ⟨hx, hy⟩) <;> exact h5 (hx ▸ hy ▸ rfl)
      rw [if_neg hc]
      exact hI.no_self a
    · intro a b nb hnb hb
      rw [construct_edge_keys (e := e) h1 h2 h3 h4 h5]
      rw [construct_edge_lookup (e := e) h1 h2 h3 h4 h5] at hnb
      by_cases ha2 : a = n2
      · rw [if_pos ha2] at hnb
        cases hnb
        rcases (mem_keysA_insertA _).mp hb with hb' | hb'
        · exact hI.closed n2 b nb2 h2 hb'
        · exact hb' ▸ lookupA_mem_keys h1
      · rw [if_neg ha2] at hnb
        by_cases ha1 : a = n1
        · rw [if_pos ha1] at hnb
          cases hnb
          rcases (mem_keysA_insertA _).mp hb with hb' | hb'
          · exact hI.closed n1 b nb1 h1 hb'
          · exact hb' ▸ lookupA_mem_keys h2
        · rw [if_neg ha1] at hnb
          exact hI.closed a b nb hnb hb
    · rw [construct_edge_sumSizes (e := e) h1 h2 h3 h4 h5,
        (construct_edge_adj (e := e) h1 h2 h3 h4 h5).2.1]
      have := hI.counter
      push_cast
      push_cast at this
      omega

end ConstructEdge

section AssignEdge

variable {g : UndirectedGraph α β} {n1 n2 : α} {e : β} {nb1 nb2 : List (α × β)}
variable {p1 p2 : β}

theorem assign_edge_cases (g : UndirectedGraph α β) (n1 n2 : α) (e : β) :
    (g.assign_edge n1 n2 e).1 = g ∨
      (∃ nb1 nb2 p1 p2,
        lookupA g.adjacency_list n1 = some nb1 ∧
        lookupA g.adjacency_list n2 = some nb2 ∧
        lookupA nb2 n1 = some p1 ∧ lookupA nb1 n2 = some p2 ∧ n1 ≠ n2 ∧
        (g.assign_edge n1 n2 e).2 = none) := by
  unfold assign_edge
  cases h1 : lookupA g.adjacency_list n1 with
  | none => left; rfl
  | some nb1 =>
    cases h2 : lookupA g.adjacency_list n2 with
    | none => left; rfl
    | some nb2 =>
      dsimp only
      by_cases h3 : (lookupA nb2 n1).isNone
      · left
        rw [if_pos h3]
      · by_cases h4 : (lookupA nb1 n2).isNone
        · left
          rw [if_neg h3, if_pos h4]
        · by_cases h5 : n1 = n2
          · left
            rw [if_neg h3, if_neg h4, if_pos h5]
          · right
            rw [Bool.not_eq_true, Option.isNone_eq_false_iff,
              Option.isSome_iff_exists] at h3 h4
            obtain ⟨q1, hq1⟩ := h3
            obtain ⟨q2, hq2⟩ := h4
            refine ⟨nb1, nb2, q1, q2, rfl, rfl, hq1, hq2, h5, ?_⟩
            rw [if_neg, if_neg, if_neg h5]
            · simp [hq2]
            · simp [hq1]

theorem assign_edge_adj
    (h1 : lookupA g.adjacency_list n1 = some nb1)
    (h2 : lookupA g.adjacency_list n2 = some nb2)
    (h3 : lookupA nb2 n1 = some p1) (h4 : lookupA nb1 n2 = some p2)
    (h5 : n1 ≠ n2) :
    (g.assign_edge n1 n2 e).1.adjacency_list
        = insertA (insertA g.adjacency_list n1 (insertA nb1 n2 e)) n2
            (insertA nb2 n1 e) ∧
      (g.assign_edge n1 n2 e).1.count_edges_f = g.count_edges_f ∧
      (g.assign_edge n1 n2 e).2 = none := by
  have hre : lookupA (insertA g.adjacency_list n1 (insertA nb1 n2 e)) n2
      = some nb2 := by
    rw [lookupA_insertA_ne _ _ (Ne.symm h5)]
    exact h2
  unfold assign_edge
  rw [h1, h2]
  simp [h3, h4, h5, hre]

theorem assign_edge_lookup
    (h1 : lookupA g.adjacency_list n1 = some nb1)
    (h2 : lookupA g.adjacency_list n2 = some nb2)
    (h3 : lookupA nb2 n1 = some p1) (h4 : lookupA nb1 n2 = some p2)
    (h5 : n1 ≠ n2) (x : α) :
    lookupA (g.assign_edge n1 n2 e).1.adjacency_list x =
      if x = n2 then some (insertA nb2 n1 e)
      else if x = n1 then some (insertA nb1 n2 e)
      else lookupA g.adjacency_list x := by
  rw [(assign_edge_adj (e := e) h1 h2 h3 h4 h5).1]
  by_cases hx2 : x = n2
  · subst hx2
    simp
  · rw [lookupA_insertA_ne _ _ hx2, if_neg hx2]
    by_cases hx1 : x = n1
    · subst hx1
      simp
    · rw [lookupA_insertA_ne _ _ hx1, if_neg hx1]

theorem assign_edge_edgeLookup
    (h1 : lookupA g.adjacency_list n1 = some nb1)
    (h2 : lookupA g.adjacency_list n2 = some nb2)
    (h3 : lookupA nb2 n1 = some p1) (h4 : lookupA nb1 n2 = some p2)
    (h5 : n1 ≠ n2) (a b : α) :
    (g.assign_edge n1 n2 e).1.edgeLookup a b =
      if a = n1 ∧ b = n2 ∨ a = n2 ∧ b = n1 then some e
      else g.edgeLookup a b := by
  unfold edgeLookup
  rw [assign_edge_lookup h1 h2 h3 h4 h5]
  by_cases ha2 : a = n2
  · rw [if_pos ha2]
    by_cases hb1 : b = n1
    · have hcond : a = n1 ∧ b = n2 ∨ a = n2 ∧ b = n1 := Or.inr ⟨ha2, hb1⟩
      rw [if_pos hcond, hb1]
      simp
    · have hcond : ¬(a = n1 ∧ b = n2 ∨ a = n2 ∧ b = n1) := by
        rintro (⟨hh, _⟩ | ⟨_, hh⟩)
        · exact h5 (hh.symm.trans ha2)
        · exact hb1 hh
      rw [if_neg hcond, ha2, h2]
      simp [lookupA_insertA_ne _ _ hb1]
  · rw [if_neg ha2]
    by_cases ha1 : a = n1
    · rw [if_pos ha1]
      by_cases hb2 : b = n2
      · have hcond : a = n1 ∧ b = n2 ∨ a = n2 ∧ b = n1 := Or.inl ⟨ha1, hb2⟩
        rw [if_pos hcond, hb2]
        simp
      · have hcond : ¬(a = n1 ∧ b = n2 ∨ a = n2 ∧ b = n1) := by
          rintro (⟨_, hh⟩ | ⟨hh, _⟩)
          · exact hb2 hh
          · exact ha2 hh
        rw [if_neg hcond, ha1, h1]
        simp [lookupA_insertA_ne _ _ hb2]
    · have hcond : ¬(a = n1 ∧ b = n2 ∨ a = n2 ∧ b = n1) := by
        rintro (⟨hh, _⟩ | ⟨hh, _⟩)
        · exact ha1 hh
        · exact ha2 hh
      rw [if_neg ha1, if_neg hcond]

theorem assign_edge_keys
    (h1 : lookupA g.adjacency_list n1 = some nb1)
    (h2 : lookupA g.adjacency_list n2 = some nb2)
    (h3 : lookupA nb2 n1 = some p1) (h4 : lookupA nb1 n2 = some p2)
    (h5 : n1 ≠ n2) :
    keysA (g.assign_edge n1 n2 e).1.adjacency_list
      = keysA g.adjacency_list := by
  rw [(assign_edge_adj (e := e) h1 h2 h3 h4 h5).1]
  rw [keysA_insertA_of_mem, keysA_insertA_of_mem]
  · exact lookupA_mem_keys h1
  · rw [keysA_insertA_of_mem _ (lookupA_mem_keys h1)]
    exact lookupA_mem_keys h2

theorem assign_edge_sumSizes
    (h1 : lookupA g.adjacency_list n1 = some nb1)
    (h2 : lookupA g.adjacency_list n2 = some nb2)
    (h3 : lookupA nb2 n1 = some p1) (h4 : lookupA nb1 n2 = some p2)
    (h5 : n1 ≠ n2) :
    sumSizes (g.assign_edge n1 n2 e).1.adjacency_list
      = sumSizes g.adjacency_list := by
  rw [(assign_edge_adj (e := e) h1 h2 h3 h4 h5).1]
  have e1 : sumSizes (insertA g.adjacency_list n1 (insertA nb1 n2 e))
      + nb1.length = sumSizes g.adjacency_list + (insertA nb1 n2 e).length :=
    sumSizes_insertA_lookup _ h1
  rw [length_insertA_of_mem _ (lookupA_mem_keys h4)] at e1
  have hre : lookupA (insertA g.adjacency_list n1 (insertA nb1 n2 e)) n2
      = some nb2 := by
    rw [lookupA_insertA_ne _ _ (Ne.symm h5)]
    exact h2
  have e2 : sumSizes (insertA (insertA g.adjacency_list n1 (insertA nb1 n2 e))
        n2 (insertA nb2 n1 e)) + nb2.length
      = sumSizes (insertA g.adjacency_list n1 (insertA nb1 n2 e))
        + (insertA nb2 n1 e).length :=
    sumSizes_insertA_lookup _ hre
  rw [length_insertA_of_mem _ (lookupA_mem_keys h3)] at e2
  omega

theorem inv_assign_edge (hI : Inv g) (n1 n2 : α) (e : β) :
    Inv (g.assign_edge n1 n2 e).1 := by
  rcases assign_edge_cases g n1 n2 e with h |
    ⟨nb1, nb2, p1, p2, h1, h2, h3, h4, h5, _⟩
  · rw [h]
    exact hI
  · constructor
    · rw [assign_edge_keys (e := e) h1 h2 h3 h4 h5]
      exact hI.nodup_top
    · intro a nb hnb
      rw [assign_edge_lookup (e := e) h1 h2 h3 h4 h5] at hnb
      by_cases ha2 : a = n2
      · rw [if_pos ha2] at hnb
        cases hnb
        exact nodup_keysA_insertA _ (hI.nodup_inner n2 nb2 h2)
      · rw [if_neg ha2] at hnb
        by_cases ha1 : a = n1
        · rw [if_pos ha1] at hnb
          cases hnb
          exact nodup_keysA_insertA _ (hI.nodup_inner n1 nb1 h1)
        · rw [if_neg ha1] at hnb
          exact hI.nodup_inner a nb hnb
    · intro a b p hab
      rw [assign_edge_edgeLookup h1 h2 h3 h4 h5] at hab ⊢
      by_cases hc : a = n1 ∧ b = n2 ∨ a = n2 ∧ b = n1
      · have hc' : b = n1 ∧ a = n2 ∨ b = n2 ∧ a = n1 := by tauto
        rw [if_pos hc] at hab
        rw [if_pos hc']
        exact hab
      · have hc' : ¬(b = n1 ∧ a = n2 ∨ b = n2 ∧ a = n1) := by tauto
        rw [if_neg hc] at hab
        rw [if_neg hc']
        exact hI.symm a b p hab
    · intro a
      rw [assign_edge_edgeLookup h1 h2 h3 h4 h5]
      have hc : ¬(a = n1 ∧ a = n2 ∨ a = n2 ∧ a = n1) := by
        rintro (⟨hx, hy⟩ | ⟨hx, hy⟩) <;> exact h5 (hx ▸ hy ▸ rfl)
      rw [if_neg hc]
      exact hI.no_self a
    · intro a b nb hnb hb
      rw [assign_edge_keys (e := e) h1 h2 h3 h4 h5]
      rw [assign_edge_lookup (e := e) h1 h2 h3 h4 h5] at hnb
      by_cases ha2 : a = n2
      · rw [if_pos ha2] at hnb
        cases hnb
        rcases (mem_keysA_insertA _).mp hb with hb' | hb'
        · exact hI.closed n2 b nb2 h2 hb'
        · exact hb' ▸ lookupA_mem_keys h1
      · rw [if_neg ha2] at hnb
        by_cases ha1 : a = n1
        · rw [if_pos ha1] at hnb
          cases hnb
          rcases (mem_keysA_insertA _).mp hb with hb' | hb'
          · exact hI.closed n1 b nb1 h1 hb'
          · exact hb' ▸ lookupA_mem_keys h2
        · rw [if_neg ha1] at hnb
          exact hI.closed a b nb hnb hb
    · rw [assign_edge_sumSizes (e := e) h1 h2 h3 h4 h5,
        (assign_edge_adj (e := e) h1 h2 h3 h4 h5).2.1]
      exact hI.counter

end AssignEdge

section RemoveEdge

variable {g : UndirectedGraph α β} {n1 n2 : α} {nb1 nb2 : List (α × β)}
variable {p1 p2 : β}

theorem remove_edge_cases (g : UndirectedGraph α β) (n1 n2 : α) :
    (g.remove_edge n1 n2).1 = g ∨
      (∃ nb1 nb2 p1 p2,
        lookupA g.adjacency_list n1 = some nb1 ∧
        lookupA g.adjacency_list n2 = some nb2 ∧
        lookupA nb2 n1 = some p1 ∧ lookupA nb1 n2 = some p2 ∧ n1 ≠ n2 ∧
        (g.remove_edge n1 n2).2 = none) := by
  unfold remove_edge
  cases h1 : lookupA g.adjacency_list n1 with
  | none => left; rfl
  | some nb1 =>
    cases h2 : lookupA g.adjacency_list n2 with
    | none => left; rfl
    | some nb2 =>
      dsimp only
      by_cases h3 : (lookupA nb2 n1).isNone
      · left
        rw [if_pos h3]
      · by_cases h4 : (lookupA nb1 n2).isNone
        · left
          rw [if_neg h3, if_pos h4]
        · by_cases h5 : n1 = n2
          · left
            rw [if_neg h3, if_neg h4, if_pos h5]
          · right
            rw [Bool.not_eq_true, Option.isNone_eq_false_iff,
              Option.isSome_iff_exists] at h3 h4
            obtain ⟨q1, hq1⟩ := h3
            obtain ⟨q2, hq2⟩ := h4
            refine ⟨nb1, nb2, q1, q2, rfl, rfl, hq1, hq2, h5, ?_⟩
            rw [if_neg, if_neg, if_neg h5]
            · simp [hq2]
            · simp [hq1]

theorem remove_edge_adj
    (h1 : lookupA g.adjacency_list n1 = some nb1)
    (h2 : lookupA g.adjacency_list n2 = some nb2)
    (h3 : lookupA nb2 n1 = some p1) (h4 : lookupA nb1 n2 = some p2)
    (h5 : n1 ≠ n2) :
    (g.remove_edge n1 n2).1.adjacency_list
        = insertA (insertA g.adjacency_list n1 (eraseA nb1 n2)) n2
            (eraseA nb2 n1) ∧
      (g.remove_edge n1 n2).1.count_edges_f = g.count_edges_f - 1 ∧
      (g.remove_edge n1 n2).2 = none := by
  have hre : lookupA (insertA g.adjacency_list n1 (eraseA nb1 n2)) n2
      = some nb2 := by
    rw [lookupA_insertA_ne _ _ (Ne.symm h5)]
    exact h2
  unfold remove_edge
  rw [h1, h2]
  simp [h3, h4, h5, hre]

theorem remove_edge_lookup
    (h1 : lookupA g.adjacency_list n1 = some nb1)
    (h2 : lookupA g.adjacency_list n2 = some nb2)
    (h3 : lookupA nb2 n1 = some p1) (h4 : lookupA nb1 n2 = some p2)
    (h5 : n1 ≠ n2) (x : α) :
    lookupA (g.remove_edge n1 n2).1.adjacency_list x =
      if x = n2 then some (eraseA nb2 n1)
      else if x = n1 then some (eraseA nb1 n2)
      else lookupA g.adjacency_list x := by
  rw [(remove_edge_adj h1 h2 h3 h4 h5).1]
  by_cases hx2 : x = n2
  · subst hx2
    simp
  · rw [lookupA_insertA_ne _ _ hx2, if_neg hx2]
    by_cases hx1 : x = n1
    · subst hx1
      simp
    · rw [lookupA_insertA_ne _ _ hx1, if_neg hx1]

theorem remove_edge_edgeLookup
    (hnd1 : (keysA nb1).Nodup) (hnd2 : (keysA nb2).Nodup)
    (h1 : lookupA g.adjacency_list n1 = some nb1)
    (h2 : lookupA g.adjacency_list n2 = some nb2)
    (h3 : lookupA nb2 n1 = some p1) (h4 : lookupA nb1 n2 = some p2)
    (h5 : n1 ≠ n2) (a b : α) :
    (g.remove_edge n1 n2).1.edgeLookup a b =
      if a = n1 ∧ b = n2 ∨ a = n2 ∧ b = n1 then none
      else g.edgeLookup a b := by
  unfold edgeLookup
  rw [remove_edge_lookup h1 h2 h3 h4 h5]
  by_cases ha2 : a = n2
  · rw [if_pos ha2]
    by_cases hb1 : b = n1
    · have hcond : a = n1 ∧ b = n2 ∨ a = n2 ∧ b = n1 := Or.inr ⟨ha2, hb1⟩
      rw [if_pos hcond, hb1]
      simp [lookupA_eraseA_self nb2 n1 hnd2]
    · have hcond : ¬(a = n1 ∧ b = n2 ∨ a = n2 ∧ b = n1) := by
        rintro (⟨hh, _⟩ | ⟨_, hh⟩)
        · exact h5 (hh.symm.trans ha2)
        · exact hb1 hh
      rw [if_neg hcond, ha2, h2]
      simp [lookupA_eraseA_ne nb2 hnd2 hb1]
  · rw [if_neg ha2]
    by_cases ha1 : a = n1
    · rw [if_pos ha1]
      by_cases hb2 : b = n2
      · have hcond : a = n1 ∧ b = n2 ∨ a = n2 ∧ b = n1 := Or.inl ⟨ha1, hb2⟩
        rw [if_pos hcond, hb2]
        simp [lookupA_eraseA_self nb1 n2 hnd1]
      · have hcond : ¬(a = n1 ∧ b = n2 ∨ a = n2 ∧ b = n1) := by
          rintro (⟨_, hh⟩ | ⟨hh, _⟩)
          · exact hb2 hh
          · exact ha2 hh
        rw [if_neg hcond, ha1, h1]
        simp [lookupA_eraseA_ne nb1 hnd1 hb2]
    · have hcond : ¬(a = n1 ∧ b = n2 ∨ a = n2 ∧ b = n1) := by
        rintro (⟨hh, _⟩ | ⟨hh, _⟩)
        · exact ha1 hh
        · exact ha2 hh
      rw [if_neg ha1, if_neg hcond]

theorem remove_edge_keys
    (h1 : lookupA g.adjacency_list n1 = some nb1)
    (h2 : lookupA g.adjacency_list n2 = some nb2)
    (h3 : lookupA nb2 n1 = some p1) (h4 : lookupA nb1 n2 = some p2)
    (h5 : n1 ≠ n2) :
    keysA (g.remove_edge n1 n2).1.adjacency_list = keysA g.adjacency_list := by
  rw [(remove_edge_adj h1 h2 h3 h4 h5).1]
  rw [keysA_insertA_of_mem, keysA_insertA_of_mem]
  · exact lookupA_mem_keys h1
  · rw [keysA_insertA_of_mem _ (lookupA_mem_keys h1)]
    exact lookupA_mem_keys h2

theorem remove_edge_sumSizes
    (h1 : lookupA g.adjacency_list n1 = some nb1)
    (h2 : lookupA g.adjacency_list n2 = some nb2)
    (h3 : lookupA nb2 n1 = some p1) (h4 : lookupA nb1 n2 = some p2)
    (h5 : n1 ≠ n2) :
    sumSizes (g.remove_edge n1 n2).1.adjacency_list + 2
      = sumSizes g.adjacency_list := by
  rw [(remove_edge_adj h1 h2 h3 h4 h5).1]
  have e1 : sumSizes (insertA g.adjacency_list n1 (eraseA nb1 n2))
      + nb1.length = sumSizes g.adjacency_list + (eraseA nb1 n2).length :=
    sumSizes_insertA_lookup _ h1
  have e1' : (eraseA nb1 n2).length + 1 = nb1.length :=
    length_eraseA_of_lookup h4
  have hre : lookupA (insertA g.adjacency_list n1 (eraseA nb1 n2)) n2
      = some nb2 := by
    rw [lookupA_insertA_ne _ _ (Ne.symm h5)]
    exact h2
  have e2 : sumSizes (insertA (insertA g.adjacency_list n1 (eraseA nb1 n2))
        n2 (eraseA nb2 n1)) + nb2.length
      = sumSizes (insertA g.adjacency_list n1 (eraseA nb1 n2))
        + (eraseA nb2 n1).length :=
    sumSizes_insertA_lookup _ hre
  have e2' : (eraseA nb2 n1).length + 1 = nb2.length :=
    length_eraseA_of_lookup h3
  omega

theorem inv_remove_edge (hI : Inv g) (n1 n2 : α) :
    Inv (g.remove_edge n1 n2).1 := by
  rcases remove_edge_cases g n1 n2 with h |
    ⟨nb1, nb2, p1, p2, h1, h2, h3, h4, h5, _⟩
  · rw [h]
    exact hI
  · have hnd1 := hI.nodup_inner n1 nb1 h1
    have hnd2 := hI.nodup_inner n2 nb2 h2
    constructor
    · rw [remove_edge_keys h1 h2 h3 h4 h5]
      exact hI.nodup_top
    · intro a nb hnb
      rw [remove_edge_lookup h1 h2 h3 h4 h5] at hnb
      by_cases ha2 : a = n2
      · rw [if_pos ha2] at hnb
        cases hnb
        exact nodup_keysA_eraseA _ hnd2
      · rw [if_neg ha2] at hnb
        by_cases ha1 : a = n1
        · rw [if_pos ha1] at hnb
          cases hnb
          exact nodup_keysA_eraseA _ hnd1
        · rw [if_neg ha1] at hnb
          exact hI.nodup_inner a nb hnb
    · intro a b p hab
      rw [remove_edge_edgeLookup hnd1 hnd2 h1 h2 h3 h4 h5] at hab ⊢
      by_cases hc : a = n1 ∧ b = n2 ∨ a = n2 ∧ b = n1
      · rw [if_pos hc] at hab
        cases hab
      · have hc' : ¬(b = n1 ∧ a = n2 ∨ b = n2 ∧ a = n1) := by tauto
        rw [if_neg hc] at hab
        rw [if_neg hc']
        exact hI.symm a b p hab
    · intro a
      rw [remove_edge_edgeLookup hnd1 hnd2 h1 h2 h3 h4 h5]
      by_cases hc : a = n1 ∧ a = n2 ∨ a = n2 ∧ a = n1
      · rw [if_pos hc]
      · rw [if_neg hc]
        exact hI.no_self a
    · intro a b nb hnb hb
      rw [remove_edge_keys h1 h2 h3 h4 h5]
      rw [remove_edge_lookup h1 h2 h3 h4 h5] at hnb
      by_cases ha2 : a = n2
      · rw [if_pos ha2] at hnb
        cases hnb
        exact hI.closed n2 b nb2 h2 (keysA_eraseA_subset hb)
      · rw [if_neg ha2] at hnb
        by_cases ha1 : a = n1
        · rw [if_pos ha1] at hnb
          cases hnb
          exact hI.closed n1 b nb1 h1 (keysA_eraseA_subset hb)
        · rw [if_neg ha1] at hnb
          exact hI.closed a b nb hnb hb
    · have hs := remove_edge_sumSizes h1 h2 h3 h4 h5
      rw [(remove_edge_adj h1 h2 h3 h4 h5).2.1]
      have := hI.counter
      omega

end RemoveEdge

section RemoveNode

theorem popFold_lookup_not_mem (n : α) (ms : List (α × β)) :
    ∀ (top : List (α × List (α × β))) (x : α), x ∉ keysA ms →
      lookupA (ms.foldl (popNeighbor n) top) x = lookupA top x := by
  induction ms with
  | nil => intro top x _; rfl
  | cons q tl ih =>
    intro top x hx
    simp only [keysA_cons, List.mem_cons] at hx
    push_neg at hx
    rw [List.foldl_cons, ih _ x hx.2]
    exact lookupA_insertA_ne _ _ hx.1

theorem popFold_lookup_mem (n : α) (ms : List (α × β)) :
    ∀ (top : List (α × List (α × β))), (keysA ms).Nodup →
      ∀ p ∈ ms, lookupA (ms.foldl (popNeighbor n) top) p.1
        = some (eraseA ((lookupA top p.1).getD []) n) := by
  induction ms with
  | nil => intro top _ p hp; simp at hp
  | cons q tl ih =>
    intro top hnd p hp
    simp only [keysA_cons, List.nodup_cons] at hnd
    rcases List.mem_cons.mp hp with hp1 | hp1
    · subst hp1
      rw [List.foldl_cons,
        popFold_lookup_not_mem n tl (popNeighbor n top p) p.1 hnd.1]
      unfold popNeighbor
      rw [lookupA_insertA_self]
    · have hne : p.1 ≠ q.1 := by
        rintro he
        exact hnd.1 (he ▸ List.mem_map_of_mem Prod.fst hp1)
      rw [List.foldl_cons, ih _ hnd.2 p hp1]
      unfold popNeighbor
      rw [lookupA_insertA_ne _ _ hne]

theorem popFold_keys (n : α) (ms : List (α × β)) :
    ∀ (top : List (α × List (α × β))), (∀ p ∈ ms, p.1 ∈ keysA top) →
      keysA (ms.foldl (popNeighbor n) top) = keysA top := by
  induction ms with
  | nil => intro top _; rfl
  | cons q tl ih =>
    intro top hmem
    have hq : q.1 ∈ keysA top := hmem q (List.mem_cons_self q tl)
    have hk : keysA (popNeighbor n top q) = keysA top := by
      unfold popNeighbor
      exact keysA_insertA_of_mem _ hq
    rw [List.foldl_cons, ih _ ?_, hk]
    intro p hp
    rw [hk]
    exact hmem p (List.mem_cons_of_mem q hp)

theorem popFold_sumSizes (n : α) (ms : List (α × β)) :
    ∀ (top : List (α × List (α × β))), (keysA ms).Nodup →
      (∀ p ∈ ms, ∃ v, lookupA top p.1 = some v ∧ n ∈ keysA v) →
      sumSizes (ms.foldl (popNeighbor n) top) + ms.length = sumSizes top := by
  induction ms with
  | nil => intro top _ _; simp
  | cons q tl ih =>
    intro top hnd hv
    simp only [keysA_cons, List.nodup_cons] at hnd
    obtain ⟨v, hvq, hnv⟩ := hv q (List.mem_cons_self q tl)
    obtain ⟨w, hw⟩ := Option.isSome_iff_exists.mp (lookupA_isSome.mpr hnv)
    have hstep : sumSizes (popNeighbor n top q) + 1 = sumSizes top := by
      unfold popNeighbor
      rw [hvq]
      have e1 : sumSizes (insertA top q.1 (eraseA ((some v).getD []) n))
          + v.length = sumSizes top + (eraseA ((some v).getD []) n).length := by
        exact sumSizes_insertA_lookup _ hvq
      have e2 : (eraseA v n).length + 1 = v.length :=
        length_eraseA_of_lookup hw
      simp only [Option.getD_some] at e1 ⊢
      omega
    have htl : ∀ p ∈ tl, ∃ v', lookupA (popNeighbor n top q) p.1 = some v'
        ∧ n ∈ keysA v' := by
      intro p hp
      have hne : p.1 ≠ q.1 := by
        rintro he
        exact hnd.1 (he ▸ List.mem_map_of_mem Prod.fst hp)
      obtain ⟨v', hv', hnv'⟩ := hv p (List.mem_cons_of_mem q hp)
      refine ⟨v', ?_, hnv'⟩
      unfold popNeighbor
      rw [lookupA_insertA_ne _ _ hne]
      exact hv'
    have := ih (popNeighbor n top q) hnd.2 htl
    rw [List.foldl_cons]
    simp only [List.length_cons]
    omega

variable {g : UndirectedGraph α β} {n : α} {nbrs : List (α × β)}

theorem remove_node_cases (g : UndirectedGraph α β) (n : α) :
    ((g.remove_node n).1 = g ∧ lookupA g.adjacency_list n = none ∧
        (g.remove_node n).2 = some .nodeNotExists) ∨
      (∃ nbrs, lookupA g.adjacency_list n = some nbrs ∧
        (g.remove_node n).2 = none) := by
  unfold remove_node
  cases h : lookupA g.adjacency_list n with
  | none => exact Or.inl ⟨rfl, rfl, rfl⟩
  | some nbrs => exact Or.inr ⟨nbrs, rfl, rfl⟩

theorem remove_node_adj (h : lookupA g.adjacency_list n = some nbrs)
    (hnn : n ∉ keysA nbrs) :
    (g.remove_node n).1.adjacency_list
        = eraseA (nbrs.foldl (popNeighbor n) g.adjacency_list) n ∧
      (g.remove_node n).1.count_edges_f
        = g.count_edges_f - nbrs.length ∧
      (g.remove_node n).2 = none := by
  have hl : lookupA (nbrs.foldl (popNeighbor n) g.adjacency_list) n
      = some nbrs := by
    rw [popFold_lookup_not_mem n nbrs g.adjacency_list n hnn]
    exact h
  unfold remove_node
  rw [h]
  simp [hl]

theorem no_self_not_mem (hI : Inv g) (h : lookupA g.adjacency_list n = some nbrs) :
    n ∉ keysA nbrs := by
  have h0 := hI.no_self n
  unfold edgeLookup at h0
  rw [h] at h0
  simp only [Option.some_bind] at h0
  exact lookupA_eq_none.mp h0

theorem nbr_lookup_back (hI : Inv g) (h : lookupA g.adjacency_list n = some nbrs) :
    ∀ p ∈ nbrs, ∃ v, lookupA g.adjacency_list p.1 = some v ∧ n ∈ keysA v := by
  intro p hp
  have h1 : lookupA nbrs p.1 = some p.2 :=
    lookupA_of_mem_nodup (hI.nodup_inner n nbrs h) hp
  have h2 : g.edgeLookup n p.1 = some p.2 := by
    unfold edgeLookup
    rw [h]
    simpa using h1
  have h3 := hI.symm n p.1 p.2 h2
  unfold edgeLookup at h3
  rcases Option.bind_eq_some.mp h3 with ⟨v, hv, hvn⟩
  exact ⟨v, hv, lookupA_mem_keys hvn⟩

theorem remove_node_lookup (hI : Inv g)
    (h : lookupA g.adjacency_list n = some nbrs) :
    lookupA (g.remove_node n).1.adjacency_list n = none ∧
      (∀ a, a ≠ n → a ∈ keysA nbrs →
        ∃ v, lookupA g.adjacency_list a = some v ∧ n ∈ keysA v ∧
          lookupA (g.remove_node n).1.adjacency_list a = some (eraseA v n)) ∧
      (∀ a, a ≠ n → a ∉ keysA nbrs →
        lookupA (g.remove_node n).1.adjacency_list a
          = lookupA g.adjacency_list a) := by
  have hnn := no_self_not_mem hI h
  have hin : ∀ p ∈ nbrs, p.1 ∈ keysA g.adjacency_list := fun p hp =>
    hI.closed n p.1 nbrs h (List.mem_map_of_mem Prod.fst hp)
  have hkeys1 : keysA (nbrs.foldl (popNeighbor n) g.adjacency_list)
      = keysA g.adjacency_list := popFold_keys n nbrs g.adjacency_list hin
  have hnd1 : (keysA (nbrs.foldl (popNeighbor n) g.adjacency_list)).Nodup := by
    rw [hkeys1]
    exact hI.nodup_top
  have hadj := (remove_node_adj h hnn).1
  refine ⟨?_, ?_, ?_⟩
  · rw [hadj]
    exact lookupA_eraseA_self _ n hnd1
  · intro a ha hmem
    rcases List.mem_map.mp hmem with ⟨p, hp, hpa⟩
    obtain ⟨v, hva, hnv⟩ := nbr_lookup_back hI h p hp
    have hva' : lookupA g.adjacency_list a = some v := hpa ▸ hva
    refine ⟨v, hva', hnv, ?_⟩
    rw [hadj, lookupA_eraseA_ne _ hnd1 ha]
    have hpf := popFold_lookup_mem n nbrs g.adjacency_list
      (hI.nodup_inner n nbrs h) p hp
    rw [hpa] at hpf
    rw [hpf, hva']
    simp
  · intro a ha hmem
    rw [hadj, lookupA_eraseA_ne _ hnd1 ha]
    exact popFold_lookup_not_mem n nbrs g.adjacency_list a hmem

theorem remove_node_edgeLookup (hI : Inv g)
    (h : lookupA g.adjacency_list n = some nbrs) (a b : α) :
    (g.remove_node n).1.edgeLookup a b =
      if a = n ∨ b = n then none else g.edgeLookup a b := by
  obtain ⟨la_n, la_mem, la_other⟩ := remove_node_lookup hI h
  unfold edgeLookup
  by_cases ha : a = n
  · rw [ha, la_n, if_pos (Or.inl rfl)]
    rfl
  · by_cases hmem : a ∈ keysA nbrs
    · obtain ⟨v, hva, hnv, hla⟩ := la_mem a ha hmem
      rw [hla, hva]
      simp only [Option.some_bind]
      have hndv : (keysA v).Nodup := hI.nodup_inner a v hva
      by_cases hb : b = n
      · rw [hb, if_pos (Or.inr rfl)]
        exact lookupA_eraseA_self v n hndv
      · rw [if_neg (by tauto)]
        exact lookupA_eraseA_ne v hndv hb
    · rw [la_other a ha hmem]
      by_cases hb : b = n
      · rw [if_pos (Or.inr hb)]
        cases hla : lookupA g.adjacency_list a with
        | none => rfl
        | some va =>
          simp only [Option.some_bind]
          cases hvan : lookupA va b with
          | none => rfl
          | some p =>
            exfalso
            have h1 : g.edgeLookup a n = some p := by
              unfold edgeLookup
              rw [hla]
              simpa [hb] using hvan
            have h2 := hI.symm a n p h1
            unfold edgeLookup at h2
            rw [h] at h2
            simp only [Option.some_bind] at h2
            exact hmem (lookupA_mem_keys h2)
      · rw [if_neg (by tauto)]

theorem remove_node_keys_count (hI : Inv g)
    (h : lookupA g.adjacency_list n = some nbrs) :
    (g.remove_node n).1.adjacency_list.length + 1 = g.adjacency_list.length ∧
      (g.remove_node n).1.count_edges_f = g.count_edges_f - nbrs.length ∧
      sumSizes (g.remove_node n).1.adjacency_list + 2 * nbrs.length
        = sumSizes g.adjacency_list := by
  have hnn := no_self_not_mem hI h
  have hin : ∀ p ∈ nbrs, p.1 ∈ keysA g.adjacency_list := fun p hp =>
    hI.closed n p.1 nbrs h (List.mem_map_of_mem Prod.fst hp)
  have hkeys1 : keysA (nbrs.foldl (popNeighbor n) g.adjacency_list)
      = keysA g.adjacency_list := popFold_keys n nbrs g.adjacency_list hin
  have hl : lookupA (nbrs.foldl (popNeighbor n) g.adjacency_list) n
      = some nbrs := by
    rw [popFold_lookup_not_mem n nbrs g.adjacency_list n hnn]
    exact h
  have hadj := (remove_node_adj h hnn).1
  refine ⟨?_, (remove_node_adj h hnn).2.1, ?_⟩
  · rw [hadj]
    have e1 : (eraseA (nbrs.foldl (popNeighbor n) g.adjacency_list) n).length
        + 1 = (nbrs.foldl (popNeighbor n) g.adjacency_list).length :=
      length_eraseA_of_lookup hl
    have e2 : (nbrs.foldl (popNeighbor n) g.adjacency_list).length
        = g.adjacency_list.length := by
      have := congrArg List.length hkeys1
      simpa [keysA] using this
    omega
  · rw [hadj]
    have e1 : sumSizes (eraseA (nbrs.foldl (popNeighbor n) g.adjacency_list) n)
        + nbrs.length
        = sumSizes (nbrs.foldl (popNeighbor n) g.adjacency_list) :=
      sumSizes_eraseA_lookup hl
    have e2 := popFold_sumSizes n nbrs g.adjacency_list
      (hI.nodup_inner n nbrs h) (nbr_lookup_back hI h)
    omega

theorem inv_remove_node (hI : Inv g) (n : α) : Inv (g.remove_node n).1 := by
  rcases remove_node_cases g n with ⟨h, _, _⟩ | ⟨nbrs, h, _⟩
  · rw [h]
    exact hI
  · have hnn := no_self_not_mem hI h
    have hin : ∀ p ∈ nbrs, p.1 ∈ keysA g.adjacency_list := fun p hp =>
      hI.closed n p.1 nbrs h (List.mem_map_of_mem Prod.fst hp)
    have hkeys1 : keysA (nbrs.foldl (popNeighbor n) g.adjacency_list)
        = keysA g.adjacency_list := popFold_keys n nbrs g.adjacency_list hin
    have hnd1 : (keysA (nbrs.foldl (popNeighbor n) g.adjacency_list)).Nodup := by
      rw [hkeys1]
      exact hI.nodup_top
    have hadj := (remove_node_adj h hnn).1
    obtain ⟨la_n, la_mem, la_other⟩ := remove_node_lookup hI h
    have hkeys : ∀ b, b ∈ keysA (g.remove_node n).1.adjacency_list
        ↔ b ∈ keysA g.adjacency_list ∧ b ≠ n := by
      intro b
      rw [hadj, mem_keysA_eraseA hnd1, hkeys1]
    constructor
    · rw [hadj]
      exact nodup_keysA_eraseA _ hnd1
    · intro a nb hnb
      by_cases ha : a = n
      · rw [ha, la_n] at hnb
        cases hnb
      · by_cases hmem : a ∈ keysA nbrs
        · obtain ⟨v, hva, hnv, hla⟩ := la_mem a ha hmem
          rw [hla] at hnb
          cases hnb
          exact nodup_keysA_eraseA _ (hI.nodup_inner a v hva)
        · rw [la_other a ha hmem] at hnb
          exact hI.nodup_inner a nb hnb
    · intro a b p hab
      rw [remove_node_edgeLookup hI h] at hab ⊢
      by_cases hc : a = n ∨ b = n
      · rw [if_pos hc] at hab
        cases hab
      · rw [if_neg hc] at hab
        rw [if_neg (by tauto)]
        exact hI.symm a b p hab
    · intro a
      rw [remove_node_edgeLookup hI h]
      by_cases hc : a = n ∨ a = n
      · rw [if_pos hc]
      · rw [if_neg hc]
        exact hI.no_self a
    · intro a b nb hnb hb
      rw [hkeys b]
      by_cases ha : a = n
      · rw [ha, la_n] at hnb
        cases hnb
      · by_cases hmem : a ∈ keysA nbrs
        · obtain ⟨v, hva, hnv, hla⟩ := la_mem a ha hmem
          rw [hla] at hnb
          cases hnb
          have hbv := (mem_keysA_eraseA (hI.nodup_inner a v hva)).mp hb
          exact ⟨hI.closed a b v hva hbv.1, hbv.2⟩
        · rw [la_other a ha hmem] at hnb
          refine ⟨hI.closed a b nb hnb hb, ?_⟩
          rintro rfl
          have h1 : (lookupA nb b).isSome = true := lookupA_isSome.mpr hb
          obtain ⟨p, hp⟩ := Option.isSome_iff_exists.mp h1
          have h2 : g.edgeLookup a b = some p := by
            unfold edgeLookup
            rw [hnb]
            simpa using hp
          have h3 := hI.symm a b p h2
          unfold edgeLookup at h3
          rw [h] at h3
          simp only [Option.some_bind] at h3
          exact hmem (lookupA_mem_keys h3)
    · have hcnt := (remove_node_keys_count hI h).2.1
      have hsum := (remove_node_keys_count hI h).2.2
      have := hI.counter
      omega

end RemoveNode

section EdgeIter

/-- Two emitted triples name different unordered node pairs. -/
def diffPair (s t : α × α × β) : Prop :=
  ¬(s.1 = t.1 ∧ s.2.1 = t.2.1 ∨ s.1 = t.2.1 ∧ s.2.1 = t.1)

theorem diffPair_symm :
    ∀ s t : α × α × β, diffPair s t → diffPair t s := by
  intro s t h hc
  apply h
  rcases hc with ⟨h1, h2⟩ | ⟨h1, h2⟩
  · exact Or.inl ⟨h1.symm, h2.symm⟩
  · exact Or.inr ⟨h2.symm, h1.symm⟩

theorem iterInner_spec (u : α) (tl : List (α × β)) :
    ∀ (vis : List (α × α)), (∀ a b, (a, b) ∈ vis → (b, a) ∈ vis) →
      (∀ q ∈ vis, q ∈ (iterInner u tl vis).2) ∧
      (∀ a b, (a, b) ∈ (iterInner u tl vis).2 ↔ (a, b) ∈ vis ∨
        (∃ p, (a, b, p) ∈ (iterInner u tl vis).1) ∨
        (∃ p, (b, a, p) ∈ (iterInner u tl vis).1)) ∧
      (∀ a b p, (a, b, p) ∈ (iterInner u tl vis).1 →
        a = u ∧ (b, p) ∈ tl ∧ (a, b) ∉ vis ∧ (b, a) ∉ vis) ∧
      (∀ v p, (v, p) ∈ tl → (u, v) ∈ (iterInner u tl vis).2) ∧
      List.Pairwise diffPair (iterInner u tl vis).1 := by
  induction tl with
  | nil =>
    intro vis hsc
    refine ⟨fun q hq => hq, ?_, ?_, ?_, ?_⟩
    · intro a b
      simp [iterInner]
    · intro a b p h
      simp [iterInner] at h
    · intro v p h
      simp at h
    · simp [iterInner]
  | cons hd tl ih =>
    obtain ⟨v, p⟩ := hd
    intro vis hsc
    by_cases hv : (u, v) ∈ vis
    · have hred : iterInner u ((v, p) :: tl) vis = iterInner u tl vis := by
        simp [iterInner, hv]
      rw [hred]
      obtain ⟨i1, i2, i3, i4, i5⟩ := ih vis hsc
      refine ⟨i1, i2, ?_, ?_, i5⟩
      · intro a b p' h
        obtain ⟨ha, hb, hc, hd⟩ := i3 a b p' h
        exact ⟨ha, List.mem_cons_of_mem _ hb, hc, hd⟩
      · intro w q hw
        rcases List.mem_cons.mp hw with h1 | h1
        · cases h1
          exact i1 _ hv
        · exact i4 w q h1
    · have hred : iterInner u ((v, p) :: tl) vis
          = ((u, v, p) :: (iterInner u tl ((v, u) :: (u, v) :: vis)).1,
             (iterInner u tl ((v, u) :: (u, v) :: vis)).2) := by
        simp [iterInner, hv]
      have hsc' : ∀ a b, (a, b) ∈ (v, u) :: (u, v) :: vis →
          (b, a) ∈ (v, u) :: (u, v) :: vis := by
        intro a b hab
        rcases List.mem_cons.mp hab with h1 | h1
        · cases h1
          exact List.mem_cons_of_mem _ (List.mem_cons_self _ _)
        rcases List.mem_cons.mp h1 with h2 | h2
        · cases h2
          exact List.mem_cons_self _ _
        · exact List.mem_cons_of_mem _ (List.mem_cons_of_mem _ (hsc a b h2))
      obtain ⟨i1, i2, i3, i4, i5⟩ := ih ((v, u) :: (u, v) :: vis) hsc'
      rw [hred]
      dsimp only
      refine ⟨?_, ?_, ?_, ?_, ?_⟩
      · intro qq hq
        exact i1 qq (List.mem_cons_of_mem _ (List.mem_cons_of_mem _ hq))
      · intro a b
        rw [i2 a b]
        constructor
        · rintro (h1 | h1)
          · rcases List.mem_cons.mp h1 with h2 | h2
            · cases h2
              exact Or.inr (Or.inr ⟨p, List.mem_cons_self _ _⟩)
            rcases List.mem_cons.mp h2 with h3 | h3
            · cases h3
              exact Or.inr (Or.inl ⟨p, List.mem_cons_self _ _⟩)
            · exact Or.inl h3
          · rcases h1 with ⟨p', hp'⟩ | ⟨p', hp'⟩
            · exact Or.inr (Or.inl ⟨p', List.mem_cons_of_mem _ hp'⟩)
            · exact Or.inr (Or.inr ⟨p', List.mem_cons_of_mem _ hp'⟩)
        · rintro (h1 | h1)
          · exact Or.inl (List.mem_cons_of_mem _ (List.mem_cons_of_mem _ h1))
          · rcases h1 with ⟨p', hp'⟩ | ⟨p', hp'⟩
            · rcases List.mem_cons.mp hp' with h2 | h2
              · cases h2
                exact Or.inl (List.mem_cons_of_mem _ (List.mem_cons_self _ _))
              · exact Or.inr (Or.inl ⟨p', h2⟩)
            · rcases List.mem_cons.mp hp' with h2 | h2
              · cases h2
                exact Or.inl (List.mem_cons_self _ _)
              · exact Or.inr (Or.inr ⟨p', h2⟩)
      · intro a b p' h
        rcases List.mem_cons.mp h with h1 | h1
        · cases h1
          exact ⟨rfl, List.mem_cons_self _ _, hv, fun hc => hv (hsc _ _ hc)⟩
        · obtain ⟨ha, hb, hc, hd⟩ := i3 a b p' h1
          refine ⟨ha, List.mem_cons_of_mem _ hb, ?_, ?_⟩
          · intro hx
            exact hc (List.mem_cons_of_mem _ (List.mem_cons_of_mem _ hx))
          · intro hx
            exact hd (List.mem_cons_of_mem _ (List.mem_cons_of_mem _ hx))
      · intro w q hw
        rcases List.mem_cons.mp hw with h1 | h1
        · cases h1
          exact i1 _ (List.mem_cons_of_mem _ (List.mem_cons_self _ _))
        · exact i4 w q h1
      · refine List.Pairwise.cons ?_ i5
        intro t ht
        obtain ⟨a, b, c⟩ := t
        obtain ⟨ha, hb, hc, hd⟩ := i3 a b c ht
        unfold diffPair
        dsimp only
        rintro (⟨h1, h2⟩ | ⟨h1, h2⟩)
        · subst h1
          subst h2
          exact hc (List.mem_cons_of_mem _ (List.mem_cons_self _ _))
        · subst h1
          subst h2
          exact hc (List.mem_cons_self _ _)

theorem iterOuter_spec (l : List (α × List (α × β))) :
    ∀ (vis : List (α × α)), (∀ a b, (a, b) ∈ vis → (b, a) ∈ vis) →
      (∀ a b p, (a, b, p) ∈ iterOuter l vis →
        (∃ nbrs, (a, nbrs) ∈ l ∧ (b, p) ∈ nbrs) ∧ (a, b) ∉ vis ∧ (b, a) ∉ vis) ∧
      (∀ u nbrs, (u, nbrs) ∈ l → ∀ v p, (v, p) ∈ nbrs →
        (u, v) ∈ vis ∨ (∃ q, (u, v, q) ∈ iterOuter l vis) ∨
          (∃ q, (v, u, q) ∈ iterOuter l vis)) ∧
      List.Pairwise diffPair (iterOuter l vis) := by
  induction l with
  | nil =>
    intro vis hsc
    refine ⟨?_, ?_, ?_⟩
    · intro a b p h
      simp [iterOuter] at h
    · intro u nbrs h
      simp at h
    · simp [iterOuter]
  | cons hd rest ih =>
    obtain ⟨u0, nbrs0⟩ := hd
    intro vis hsc
    obtain ⟨i1, i2, i3, i4, i5⟩ := iterInner_spec u0 nbrs0 vis hsc
    have hsc2 : ∀ a b, (a, b) ∈ (iterInner u0 nbrs0 vis).2 →
        (b, a) ∈ (iterInner u0 nbrs0 vis).2 := by
      intro a b hab
      rcases (i2 a b).mp hab with h1 | h1 | h1
      · exact (i2 b a).mpr (Or.inl (hsc a b h1))
      · exact (i2 b a).mpr (Or.inr (Or.inr h1))
      · exact (i2 b a).mpr (Or.inr (Or.inl h1))
    obtain ⟨o1, o2, o3⟩ := ih (iterInner u0 nbrs0 vis).2 hsc2
    have hred : iterOuter ((u0, nbrs0) :: rest) vis
        = (iterInner u0 nbrs0 vis).1
          ++ iterOuter rest (iterInner u0 nbrs0 vis).2 := by
      simp [iterOuter]
    rw [hred]
    refine ⟨?_, ?_, ?_⟩
    · intro a b p h
      rcases List.mem_append.mp h with h1 | h1
      · obtain ⟨ha, hb, hc, hd⟩ := i3 a b p h1
        exact ⟨⟨nbrs0, by rw [ha]; exact List.mem_cons_self _ _, hb⟩, hc, hd⟩
      · obtain ⟨⟨nbrs, hn, hbp⟩, hc, hd⟩ := o1 a b p h1
        refine ⟨⟨nbrs, List.mem_cons_of_mem _ hn, hbp⟩, ?_, ?_⟩
        · exact fun hx => hc (i1 _ hx)
        · exact fun hx => hd (i1 _ hx)
    · intro u nbrs hu v p hvp
      rcases List.mem_cons.mp hu with h1 | h1
      · cases h1
        have hm := i4 v p hvp
        rcases (i2 u0 v).mp hm with h2 | h2 | h2
        · exact Or.inl h2
        · obtain ⟨q, hq⟩ := h2
          exact Or.inr (Or.inl ⟨q, List.mem_append_left _ hq⟩)
        · obtain ⟨q, hq⟩ := h2
          exact Or.inr (Or.inr ⟨q, List.mem_append_left _ hq⟩)
      · rcases o2 u nbrs h1 v p hvp with h2 | h2 | h2
        · rcases (i2 u v).mp h2 with h3 | h3 | h3
          · exact Or.inl h3
          · obtain ⟨q, hq⟩ := h3
            exact Or.inr (Or.inl ⟨q, List.mem_append_left _ hq⟩)
          · obtain ⟨q, hq⟩ := h3
            exact Or.inr (Or.inr ⟨q, List.mem_append_left _ hq⟩)
        · obtain ⟨q, hq⟩ := h2
          exact Or.inr (Or.inl ⟨q, List.mem_append_right _ hq⟩)
        · obtain ⟨q, hq⟩ := h2
          exact Or.inr (Or.inr ⟨q, List.mem_append_right _ hq⟩)
    · rw [List.pairwise_append]
      refine ⟨i5, o3, ?_⟩
      intro s hs t ht
      obtain ⟨a, b, c⟩ := s
      obtain ⟨x, y, z⟩ := t
      have hsin : (a, b) ∈ (iterInner u0 nbrs0 vis).2 :=
        (i2 a b).mpr (Or.inr (Or.inl ⟨c, hs⟩))
      have hsin' : (b, a) ∈ (iterInner u0 nbrs0 vis).2 :=
        (i2 b a).mpr (Or.inr (Or.inr ⟨c, hs⟩))
      obtain ⟨_, htc, htd⟩ := o1 x y z ht
      unfold diffPair
      dsimp only
      rintro (⟨h1, h2⟩ | ⟨h1, h2⟩)
      · subst h1
        subst h2
        exact htc hsin
      · subst h1
        subst h2
        exact htd hsin

theorem mem_of_lookupA {κ ν : Type} [DecidableEq κ] {l : List (κ × ν)} {k : κ}
    {v : ν} (h : lookupA l k = some v) : (k, v) ∈ l := by
  induction l with
  | nil => simp at h
  | cons q tl ih =>
    obtain ⟨k', v'⟩ := q
    by_cases h1 : k = k'
    · rw [lookupA_cons, if_pos h1] at h
      cases h
      rw [h1]
      exact List.mem_cons_self _ _
    · rw [lookupA_cons, if_neg h1] at h
      exact List.mem_cons_of_mem _ (ih h)

variable {g : UndirectedGraph α β}

theorem edgeIter_sound (hI : Inv g) :
    ∀ a b p, (a, b, p) ∈ g.edgeIter → g.edgeLookup a b = some p := by
  intro a b p h
  obtain ⟨⟨nbrs, hn, hbp⟩, _, _⟩ :=
    (iterOuter_spec g.adjacency_list [] (by simp)).1 a b p h
  have h1 : lookupA g.adjacency_list a = some nbrs :=
    lookupA_of_mem_nodup hI.nodup_top hn
  have h2 : lookupA nbrs b = some p :=
    lookupA_of_mem_nodup (hI.nodup_inner a nbrs h1) hbp
  unfold edgeLookup
  rw [h1]
  simpa using h2

theorem edgeIter_complete (hI : Inv g) :
    ∀ a b p, g.edgeLookup a b = some p →
      (∃ q, (a, b, q) ∈ g.edgeIter) ∨ ∃ q, (b, a, q) ∈ g.edgeIter := by
  intro a b p h
  unfold edgeLookup at h
  rcases Option.bind_eq_some.mp h with ⟨nbrs, hn, hb⟩
  have h1 : (a, nbrs) ∈ g.adjacency_list := mem_of_lookupA hn
  have h2 : (b, p) ∈ nbrs := mem_of_lookupA hb
  rcases (iterOuter_spec g.adjacency_list [] (by simp)).2.1 a nbrs h1 b p h2
    with h3 | h3 | h3
  · simp at h3
  · exact Or.inl h3
  · exact Or.inr h3

theorem edgeIter_no_both (hI : Inv g) :
    ∀ u v p q, (u, v, p) ∈ g.edgeIter → (v, u, q) ∈ g.edgeIter → False := by
  intro u v p q h1 h2
  by_cases heq : ((u, v, p) : α × α × β) = (v, u, q)
  · have hu : u = v := congrArg Prod.fst heq
    have hs := edgeIter_sound hI u v p h1
    rw [hu] at hs
    rw [hI.no_self v] at hs
    cases hs
  · have hpw := (iterOuter_spec g.adjacency_list [] (by simp)).2.2
    have hsym : Symmetric (@diffPair α β) := fun s t h => diffPair_symm s t h
    have hd := hpw.forall hsym h1 h2 heq
    exact hd (Or.inr ⟨rfl, rfl⟩)

/-- Ordered node pairs of the emitted triples. -/
def pairsOf (E : List (α × α × β)) : List (α × α) :=
  E.map (fun t => (t.1, t.2.1))

theorem pairsOf_nodup : (pairsOf g.edgeIter).Nodup := by
  have hpw := (iterOuter_spec g.adjacency_list [] (by simp)).2.2
  rw [pairsOf]
  refine List.Pairwise.map _ ?_ hpw
  intro s t hst heq
  apply hst
  obtain ⟨h1, h2⟩ := Prod.mk.injEq _ _ _ _ |>.mp heq
  exact Or.inl ⟨h1, h2⟩

/-- All ordered adjacency pairs of the top-level dict (each stored direction
of each edge contributes one pair). -/
def allPairsL (adj : List (α × List (α × β))) : List (α × α) :=
  adj.flatMap (fun en => en.2.map (fun q => (en.1, q.1)))

theorem allPairsL_length (adj : List (α × List (α × β))) :
    (allPairsL adj).length = sumSizes adj := by
  induction adj with
  | nil => rfl
  | cons hd tl ih =>
    simp only [allPairsL, List.flatMap_cons, List.length_append,
      List.length_map, sumSizes_cons] at *
    omega

theorem allPairsL_nodup (hI : Inv g) : (allPairsL g.adjacency_list).Nodup := by
  rw [allPairsL, List.nodup_flatMap]
  constructor
  · intro en hen
    have hl : lookupA g.adjacency_list en.1 = some en.2 :=
      lookupA_of_mem_nodup hI.nodup_top hen
    have hnd : (keysA en.2).Nodup := hI.nodup_inner en.1 en.2 hl
    have hrw : en.2.map (fun q => (en.1, q.1))
        = (keysA en.2).map (fun x => (en.1, x)) := by
      rw [keysA, List.map_map]
      rfl
    rw [hrw]
    refine hnd.map ?_
    intro x y hxy
    exact (Prod.mk.injEq _ _ _ _ |>.mp hxy).2
  · have h0 : g.adjacency_list.Pairwise (fun e1 e2 => e1.1 ≠ e2.1) :=
      List.pairwise_map.mp hI.nodup_top
    refine h0.imp ?_
    intro e1 e2 hne x hx1 hx2
    rcases List.mem_map.mp hx1 with ⟨q1, _, hq1⟩
    rcases List.mem_map.mp hx2 with ⟨q2, _, hq2⟩
    apply hne
    have := hq1.trans hq2.symm
    exact (Prod.mk.injEq _ _ _ _ |>.mp this).1

theorem allPairsL_mem (hI : Inv g) (x y : α) :
    (x, y) ∈ allPairsL g.adjacency_list ↔ ∃ p, g.edgeLookup x y = some p := by
  rw [allPairsL, List.mem_flatMap]
  constructor
  · rintro ⟨en, hen, hx⟩
    rcases List.mem_map.mp hx with ⟨q, hq, hqe⟩
    obtain ⟨h1, h2⟩ := Prod.mk.injEq _ _ _ _ |>.mp hqe
    have hl : lookupA g.adjacency_list en.1 = some en.2 :=
      lookupA_of_mem_nodup hI.nodup_top hen
    have hq' : lookupA en.2 q.1 = some q.2 :=
      lookupA_of_mem_nodup (hI.nodup_inner _ _ hl) hq
    refine ⟨q.2, ?_⟩
    unfold edgeLookup
    rw [← h1, ← h2, hl]
    simpa using hq'
  · rintro ⟨p, hp⟩
    unfold edgeLookup at hp
    rcases Option.bind_eq_some.mp hp with ⟨nbrs, hn, hb⟩
    exact ⟨(x, nbrs), mem_of_lookupA hn,
      List.mem_map.mpr ⟨(y, p), mem_of_lookupA hb, rfl⟩⟩

theorem edgeIter_length (hI : Inv g) :
    2 * (g.edgeIter).length = sumSizes g.adjacency_list := by
  have hPn : (pairsOf g.edgeIter).Nodup := pairsOf_nodup
  have hPs : ((pairsOf g.edgeIter).map Prod.swap).Nodup :=
    hPn.map Prod.swap_injective
  have hdisj : List.Disjoint (pairsOf g.edgeIter)
      ((pairsOf g.edgeIter).map Prod.swap) := by
    intro x hx hxs
    rcases List.mem_map.mp hxs with ⟨y, hy, hyx⟩
    rcases List.mem_map.mp hx with ⟨t, ht, htx⟩
    rcases List.mem_map.mp hy with ⟨s, hs, hsy⟩
    obtain ⟨a, b, c⟩ := t
    obtain ⟨d, e', f⟩ := s
    rw [← hsy] at hyx
    have hde : ((e', d) : α × α) = x := hyx
    rw [← htx] at hde
    obtain ⟨h1, h2⟩ := Prod.mk.injEq _ _ _ _ |>.mp hde
    rw [h1] at hs
    rw [h2] at hs
    exact edgeIter_no_both hI a b c f ht hs
  have hLn : ((pairsOf g.edgeIter) ++ (pairsOf g.edgeIter).map Prod.swap).Nodup :=
    List.Nodup.append hPn hPs hdisj
  have hAEn := allPairsL_nodup hI
  have hmem : ∀ q : α × α,
      q ∈ (pairsOf g.edgeIter) ++ (pairsOf g.edgeIter).map Prod.swap ↔
        q ∈ allPairsL g.adjacency_list := by
    intro q
    obtain ⟨x, y⟩ := q
    rw [List.mem_append, allPairsL_mem hI]
    constructor
    · rintro (hx | hx)
      · rcases List.mem_map.mp hx with ⟨t, ht, htx⟩
        obtain ⟨a, b, c⟩ := t
        dsimp only at htx
        obtain ⟨h1, h2⟩ := Prod.mk.injEq _ _ _ _ |>.mp htx
        rw [h1, h2] at ht
        exact ⟨c, edgeIter_sound hI x y c ht⟩
      · rcases List.mem_map.mp hx with ⟨z, hz, hzx⟩
        rcases List.mem_map.mp hz with ⟨t, ht, htz⟩
        obtain ⟨a, b, c⟩ := t
        rw [← htz] at hzx
        dsimp only [Prod.swap] at hzx
        obtain ⟨h1, h2⟩ := Prod.mk.injEq _ _ _ _ |>.mp hzx
        rw [h1, h2] at ht
        have hs := edgeIter_sound hI y x c ht
        exact ⟨c, hI.symm y x c hs⟩
    · rintro ⟨p, hp⟩
      rcases edgeIter_complete hI x y p hp with ⟨q', hq'⟩ | ⟨q', hq'⟩
      · exact Or.inl (List.mem_map.mpr ⟨(x, y, q'), hq', rfl⟩)
      · refine Or.inr (List.mem_map.mpr ⟨(y, x), ?_, rfl⟩)
        exact List.mem_map.mpr ⟨(y, x, q'), hq', rfl⟩
  have hperm := (List.perm_ext_iff_of_nodup hLn hAEn).mpr hmem
  have hlen := hperm.length_eq
  rw [List.length_append, List.length_map, allPairsL_length] at hlen
  have hPl : (pairsOf g.edgeIter).length = (g.edgeIter).length := by
    rw [pairsOf, List.length_map]
  omega

end EdgeIter

section Traversal

theorem mem_searchSched (dfs : Bool) (nbrs rest : List α) (x : α) :
    x ∈ searchSched dfs nbrs rest ↔ x ∈ nbrs ∨ x ∈ rest := by
  cases dfs <;> simp [searchSched] <;> tauto

theorem searchNbrs_sub_keys {top : List (α × List (α × β))}
    (hclosed : ∀ a nb, lookupA top a = some nb → ∀ q ∈ nb, q.1 ∈ keysA top)
    (c : α) (visited : List α) :
    ∀ x ∈ (keysA ((lookupA top c).getD [])).filter
        (fun m => decide (m ∉ c :: visited)), x ∈ keysA top := by
  intro x hx
  have hx' := List.mem_of_mem_filter hx
  cases hc : lookupA top c with
  | none =>
    rw [hc] at hx'
    simp at hx'
  | some nb =>
    rw [hc] at hx'
    simp only [Option.getD_some] at hx'
    rcases List.mem_map.mp hx' with ⟨q, hq, hqx⟩
    exact hqx ▸ hclosed c nb hc q hq

theorem searchLoop_spec (dfs : Bool) (top : List (α × List (α × β)))
    (hclosed : ∀ a nb, lookupA top a = some nb → ∀ q ∈ nb, q.1 ∈ keysA top)
    (visited pend : List α) :
    (∀ x ∈ pend, x ∈ keysA top) →
      (searchLoop dfs top visited pend).2
          = (searchLoop dfs top visited pend).1.reverse ++ visited ∧
        (∀ x ∈ (searchLoop dfs top visited pend).1, x ∉ visited) ∧
        (searchLoop dfs top visited pend).1.Nodup ∧
        (∀ x ∈ pend, x ∈ (searchLoop dfs top visited pend).2) ∧
        (∀ x ∈ (searchLoop dfs top visited pend).1, x ∈ keysA top) := by
  induction visited, pend using searchLoop.induct dfs top with
  | case1 visited =>
    intro _
    have hred : searchLoop dfs top visited [] = ([], visited) := by
      simp [searchLoop]
    rw [hred]
    refine ⟨by simp, by simp, by simp, by simp, by simp⟩
  | case2 visited c pend h ih =>
    intro hpend
    have hred : searchLoop dfs top visited (c :: pend)
        = searchLoop dfs top visited pend := by
      simp [searchLoop, h]
    obtain ⟨e1, e2, e3, e4, e5⟩ :=
      ih (fun x hx => hpend x (List.mem_cons_of_mem _ hx))
    rw [hred]
    refine ⟨e1, e2, e3, ?_, e5⟩
    intro x hx
    rcases List.mem_cons.mp hx with h1 | h1
    · rw [e1]
      exact List.mem_append_right _ (h1 ▸ h)
    · exact e4 x h1
  | case3 visited c pend h nbrs ih =>
    intro hpend
    have hred : searchLoop dfs top visited (c :: pend)
        = (c :: (searchLoop dfs top (c :: visited) (searchSched dfs nbrs pend)).1,
           (searchLoop dfs top (c :: visited) (searchSched dfs nbrs pend)).2) := by
      rw [searchLoop, if_neg h]
    have hpend' : ∀ x ∈ searchSched dfs nbrs pend, x ∈ keysA top := by
      intro x hx
      rcases (mem_searchSched dfs _ _ x).mp hx with h1 | h1
      · exact searchNbrs_sub_keys hclosed c visited x h1
      · exact hpend x (List.mem_cons_of_mem _ h1)
    obtain ⟨e1, e2, e3, e4, e5⟩ := ih hpend'
    rw [hred]
    refine ⟨?_, ?_, ?_, ?_, ?_⟩
    · dsimp only
      rw [e1]
      simp
    · dsimp only
      intro x hx
      rcases List.mem_cons.mp hx with h1 | h1
      · subst h1
        exact h
      · intro hv
        exact e2 x h1 (List.mem_cons_of_mem _ hv)
    · dsimp only
      rw [List.nodup_cons]
      exact ⟨fun hc => e2 c hc (List.mem_cons_self _ _), e3⟩
    · dsimp only
      intro x hx
      rcases List.mem_cons.mp hx with h1 | h1
      · subst h1
        rw [e1]
        exact List.mem_append_right _ (List.mem_cons_self _ _)
      · exact e4 x ((mem_searchSched dfs nbrs pend x).mpr (Or.inr h1))
    · dsimp only
      intro x hx
      rcases List.mem_cons.mp hx with h1 | h1
      · subst h1
        exact hpend x (List.mem_cons_self _ _)
      · exact e5 x h1

theorem searchOuter_spec (dfs : Bool) (top : List (α × List (α × β)))
    (hclosed : ∀ a nb, lookupA top a = some nb → ∀ q ∈ nb, q.1 ∈ keysA top) :
    ∀ (l : List (α × List (α × β))) (visited : List α),
      (∀ en ∈ l, en.1 ∈ keysA top) →
      (∀ x ∈ searchOuter dfs top l visited, x ∉ visited ∧ x ∈ keysA top) ∧
        (searchOuter dfs top l visited).Nodup ∧
        (∀ en ∈ l, en.1 ∈ visited ∨ en.1 ∈ searchOuter dfs top l visited) := by
  intro l
  induction l with
  | nil =>
    intro visited _
    refine ⟨?_, ?_, ?_⟩
    · intro x hx
      simp [searchOuter] at hx
    · simp [searchOuter]
    · intro en hen
      simp at hen
  | cons hd rest ih =>
    obtain ⟨root, nb0⟩ := hd
    intro visited hroots
    have hroot : root ∈ keysA top := hroots (root, nb0) (List.mem_cons_self _ _)
    have hrest : ∀ en ∈ rest, en.1 ∈ keysA top := fun en hen =>
      hroots en (List.mem_cons_of_mem _ hen)
    by_cases hv : root ∈ visited
    · have hred : searchOuter dfs top ((root, nb0) :: rest) visited
          = searchOuter dfs top rest visited := by
        rw [searchOuter, if_pos hv]
      rw [hred]
      obtain ⟨o1, o2, o3⟩ := ih visited hrest
      refine ⟨o1, o2, ?_⟩
      intro en hen
      rcases List.mem_cons.mp hen with h1 | h1
      · left
        rw [h1]
        exact hv
      · exact o3 en h1
    · have hred : searchOuter dfs top ((root, nb0) :: rest) visited
          = (searchLoop dfs top visited [root]).1
            ++ searchOuter dfs top rest (searchLoop dfs top visited [root]).2 := by
        rw [searchOuter, if_neg hv]
      obtain ⟨e1, e2, e3, e4, e5⟩ := searchLoop_spec dfs top hclosed visited [root]
        (by intro x hx; rw [List.mem_singleton] at hx; rw [hx]; exact hroot)
      obtain ⟨o1, o2, o3⟩ := ih (searchLoop dfs top visited [root]).2 hrest
      rw [hred]
      have hsl_sub : ∀ x ∈ (searchLoop dfs top visited [root]).1,
          x ∈ (searchLoop dfs top visited [root]).2 := by
        intro x hx
        rw [e1]
        exact List.mem_append_left _ (List.mem_reverse.mpr hx)
      refine ⟨?_, ?_, ?_⟩
      · intro x hx
        rcases List.mem_append.mp hx with h1 | h1
        · exact ⟨e2 x h1, e5 x h1⟩
        · obtain ⟨hx1, hx2⟩ := o1 x h1
          refine ⟨?_, hx2⟩
          intro hxv
          apply hx1
          rw [e1]
          exact List.mem_append_right _ hxv
      · rw [List.nodup_append]
        refine ⟨e3, o2, ?_⟩
        intro x hx1 hx2
        exact (o1 x hx2).1 (hsl_sub x hx1)
      · intro en hen
        rcases List.mem_cons.mp hen with h1 | h1
        · right
          have hr2 : root ∈ (searchLoop dfs top visited [root]).2 :=
            e4 root (List.mem_singleton.mpr rfl)
          rw [e1] at hr2
          rcases List.mem_append.mp hr2 with h2 | h2
          · rw [h1]
            exact List.mem_append_left _ (List.mem_reverse.mp h2)
          · exact absurd h2 hv
        · rcases o3 en h1 with h2 | h2
          · rw [e1] at h2
            rcases List.mem_append.mp h2 with h3 | h3
            · exact Or.inr (List.mem_append_left _ (List.mem_reverse.mp h3))
            · exact Or.inl h3
          · exact Or.inr (List.mem_append_right _ h2)

theorem traversal_complete {g : UndirectedGraph α β} (hI : Inv g) (dfs : Bool) :
    (searchOuter dfs g.adjacency_list g.adjacency_list []).Nodup ∧
      ∀ x, x ∈ searchOuter dfs g.adjacency_list g.adjacency_list []
        ↔ x ∈ keysA g.adjacency_list := by
  have hclosed : ∀ a nb, lookupA g.adjacency_list a = some nb →
      ∀ q ∈ nb, q.1 ∈ keysA g.adjacency_list := by
    intro a nb ha q hq
    exact hI.closed a q.1 nb ha (List.mem_map_of_mem Prod.fst hq)
  obtain ⟨o1, o2, o3⟩ := searchOuter_spec dfs g.adjacency_list hclosed
    g.adjacency_list [] (fun en hen => List.mem_map_of_mem Prod.fst hen)
  refine ⟨o2, ?_⟩
  intro x
  constructor
  · intro hx
    exact (o1 x hx).2
  · intro hx
    rcases List.mem_map.mp hx with ⟨en, hen, hx1⟩
    rcases o3 en hen with h1 | h1
    · simp at h1
    · exact hx1 ▸ h1

theorem traversal_length {g : UndirectedGraph α β} (hI : Inv g) (dfs : Bool) :
    (searchOuter dfs g.adjacency_list g.adjacency_list []).length
      = g.adjacency_list.length := by
  obtain ⟨hnd, hmem⟩ := traversal_complete hI dfs
  have hperm := (List.perm_ext_iff_of_nodup hnd hI.nodup_top).mpr hmem
  have := hperm.length_eq
  rw [this]
  simp [keysA]

end Traversal

end UndirectedGraph

/-!
### Heap model of object references

The pure model above cannot express aliasing, but `copy` is about aliasing:
`copy.deepcopy` duplicates every inner dict, so later mutation of the copy
cannot touch the original.  Here inner dicts live in a heap of cells
addressed by `Nat` references (a cell index models a Python object id); a
graph holds a reference per node.  `copyH` models `copy`: it allocates a
fresh cell per node holding a copy of the contents, in allocation order.
-/

/-- A graph object in the heap model: node to cell-reference map plus the
edge counter. -/
structure HeapGraph (α : Type) where
  top : List (α × Nat)
  count : Int
deriving DecidableEq, Repr

/-- The heap: cell `r` holds the inner dict `heap[r]`. -/
abbrev Heap (α β : Type) : Type := List (List (α × β))

/-- Contents of cell `r` (empty for a dangling reference). -/
def cellAt (h : Heap α β) (r : Nat) : List (α × β) :=
  List.getD h r []

/-- Length of the heap (the next fresh reference). -/
def heapLen (h : Heap α β) : Nat := List.length h

/-- References held by a graph. -/
def refsOf {α : Type} (g : HeapGraph α) : List Nat := g.top.map Prod.snd

/-- The adjacency structure a graph denotes under a heap. -/
def viewH (h : Heap α β) (g : HeapGraph α) : List (α × List (α × β)) :=
  g.top.map (fun p => (p.1, cellAt h p.2))

/-- `copy.deepcopy` of the inner dicts: allocate one fresh cell per node,
holding a copy of that node's dict, and return the new reference map. -/
def copyCells (h : Heap α β) : List (α × Nat) → Heap α β × List (α × Nat)
  | [] => (h, [])
  | (n, r) :: tl =>
    let h1 : Heap α β := h ++ [cellAt h r]
    let rec1 := copyCells h1 tl
    (rec1.1, (n, heapLen h) :: rec1.2)

/-- `copy`: fresh graph with deep-copied adjacency cells and the same
counter. -/
def copyH (h : Heap α β) (g : HeapGraph α) : Heap α β × HeapGraph α :=
  ((copyCells h g.top).1, ⟨(copyCells h g.top).2, g.count⟩)

/-- `add_node` in the heap model: a fresh empty dict is allocated. -/
def add_nodeH (h : Heap α β) (g : HeapGraph α) (n : α) :
    Heap α β × HeapGraph α :=
  if (lookupA g.top n).isSome then (h, g)
  else (h ++ [[]], ⟨insertA g.top n (heapLen h), g.count⟩)

/-- `remove_node` in the heap model: pop `n` from each neighbor's cell,
then drop `n`'s entry. -/
def remove_nodeH (h : Heap α β) (g : HeapGraph α) (n : α) :
    Heap α β × HeapGraph α :=
  match lookupA g.top n with
  | none => (h, g)
  | some rn =>
    let h1 := (cellAt h rn).foldl
      (fun hh p =>
        match lookupA g.top p.1 with
        | none => hh
        | some rm => hh.set rm (eraseA (cellAt hh rm) n))
      h
    let d := (cellAt h1 rn).length
    (h1, ⟨eraseA g.top n, g.count - d⟩)

/-- `construct_edge` in the heap model: in-place writes to the two
endpoint cells. -/
def construct_edgeH (h : Heap α β) (g : HeapGraph α) (n1 n2 : α) (e : β) :
    Heap α β × HeapGraph α :=
  match lookupA g.top n1 with
  | none => (h, g)
  | some r1 =>
    match lookupA g.top n2 with
    | none => (h, g)
    | some r2 =>
      if (lookupA (cellAt h r1) n2).isSome then (h, g)
      else if (lookupA (cellAt h r2) n1).isSome then (h, g)
      else if n1 = n2 then (h, g)
      else
        let h1 := h.set r1 (insertA (cellAt h r1) n2 e)
        let h2 := h1.set r2 (insertA (cellAt h1 r2) n1 e)
        (h2, ⟨g.top, g.count + 1⟩)

/-- `assign_edge` in the heap model. -/
def assign_edgeH (h : Heap α β) (g : HeapGraph α) (n1 n2 : α) (e : β) :
    Heap α β × HeapGraph α :=
  match lookupA g.top n1 with
  | none => (h, g)
  | some r1 =>
    match lookupA g.top n2 with
    | none => (h, g)
    | some r2 =>
      if (lookupA (cellAt h r2) n1).isNone then (h, g)
      else if (lookupA (cellAt h r1) n2).isNone then (h, g)
      else if n1 = n2 then (h, g)
      else
        let h1 := h.set r1 (insertA (cellAt h r1) n2 e)
        let h2 := h1.set r2 (insertA (cellAt h1 r2) n1 e)
        (h2, ⟨g.top, g.count⟩)

/-- `remove_edge` in the heap model. -/
def remove_edgeH (h : Heap α β) (g : HeapGraph α) (n1 n2 : α) :
    Heap α β × HeapGraph α :=
  match lookupA g.top n1 with
  | none => (h, g)
  | some r1 =>
    match lookupA g.top n2 with
    | none => (h, g)
    | some r2 =>
      if (lookupA (cellAt h r2) n1).isNone then (h, g)
      else if (lookupA (cellAt h r1) n2).isNone then (h, g)
      else if n1 = n2 then (h, g)
      else
        let h1 := h.set r1 (eraseA (cellAt h r1) n2)
        let h2 := h1.set r2 (eraseA (cellAt h1 r2) n1)
        (h2, ⟨g.top, g.count - 1⟩)

/-- `clear` in the heap model: drops all references (cells become garbage). -/
def clearH (h : Heap α β) (g : HeapGraph α) : Heap α β × HeapGraph α :=
  (h, ⟨[], 0⟩)

/-- Run one public mutating operation in the heap model. -/
def applyOpH : Op α β → Heap α β → HeapGraph α → Heap α β × HeapGraph α
  | .add_node n, h, g => add_nodeH h g n
  | .remove_node n, h, g => remove_nodeH h g n
  | .construct_edge a b e, h, g => construct_edgeH h g a b e
  | .assign_edge a b e, h, g => assign_edgeH h g a b e
  | .remove_edge a b, h, g => remove_edgeH h g a b
  | .clear, h, g => clearH h g

theorem cellAt_append {h ext : Heap α β} {r : Nat} (hr : r < heapLen h) :
    cellAt (h ++ ext) r = cellAt h r := by
  unfold cellAt heapLen at *
  rw [List.getD_eq_getElem?_getD, List.getD_eq_getElem?_getD,
    List.getElem?_append, if_pos hr]

theorem cellAt_set_ne {h : Heap α β} {r' : Nat} {v : List (α × β)} {r : Nat}
    (hne : r ≠ r') : cellAt (h.set r' v) r = cellAt h r := by
  unfold cellAt
  rw [List.getD_eq_getElem?_getD, List.getD_eq_getElem?_getD,
    List.getElem?_set_ne (Ne.symm hne)]

theorem cellAt_concat_len (h : Heap α β) (c : List (α × β)) :
    cellAt (h ++ [c]) (heapLen h) = c := by
  unfold cellAt heapLen
  rw [List.getD_eq_getElem?_getD, List.getElem?_concat_length]
  rfl

theorem copyCells_len :
    ∀ (l : List (α × Nat)) (h : Heap α β),
      heapLen h ≤ heapLen (copyCells h l).1 := by
  intro l
  induction l with
  | nil => intro h; exact Nat.le_refl _
  | cons q tl ih =>
    obtain ⟨n, r⟩ := q
    intro h
    have h1 : heapLen h ≤ heapLen (h ++ [cellAt h r]) := by
      simp [heapLen]
    exact Nat.le_trans h1 (ih (h ++ [cellAt h r]))

theorem copyCells_preserve :
    ∀ (l : List (α × Nat)) (h : Heap α β) (r : Nat), r < heapLen h →
      cellAt (copyCells h l).1 r = cellAt h r := by
  intro l
  induction l with
  | nil => intro h r _; rfl
  | cons q tl ih =>
    obtain ⟨n, r0⟩ := q
    intro h r hr
    have h1 : r < heapLen (h ++ [cellAt h r0]) := by
      simp [heapLen] at *
      omega
    calc cellAt (copyCells (h ++ [cellAt h r0]) tl).1 r
        = cellAt (h ++ [cellAt h r0]) r := ih _ r h1
      _ = cellAt h r := cellAt_append hr

theorem copyCells_refs :
    ∀ (l : List (α × Nat)) (h : Heap α β), ∀ p ∈ (copyCells h l).2,
      heapLen h ≤ p.2 ∧ p.2 < heapLen (copyCells h l).1 := by
  intro l
  induction l with
  | nil => intro h p hp; simp [copyCells] at hp
  | cons q tl ih =>
    obtain ⟨n, r0⟩ := q
    intro h p hp
    have hlen1 : heapLen h < heapLen (h ++ [cellAt h r0]) := by
      simp [heapLen]
    rcases List.mem_cons.mp hp with h1 | h1
    · rw [h1]
      exact ⟨Nat.le_refl _,
        Nat.lt_of_lt_of_le hlen1 (copyCells_len tl (h ++ [cellAt h r0]))⟩
    · obtain ⟨ha, hb⟩ := ih (h ++ [cellAt h r0]) p h1
      exact ⟨Nat.le_trans (Nat.le_of_lt hlen1) ha, hb⟩

theorem copyCells_view :
    ∀ (l : List (α × Nat)) (h : Heap α β), (∀ p ∈ l, p.2 < heapLen h) →
      (copyCells h l).2.map (fun p => (p.1, cellAt (copyCells h l).1 p.2))
        = l.map (fun p => (p.1, cellAt h p.2)) := by
  intro l
  induction l with
  | nil => intro h _; rfl
  | cons q tl ih =>
    obtain ⟨n, r0⟩ := q
    intro h hv
    have hr0 : r0 < heapLen h := hv (n, r0) (List.mem_cons_self _ _)
    have hlen1 : heapLen h < heapLen (h ++ [cellAt h r0]) := by
      simp [heapLen]
    have hv1 : ∀ p ∈ tl, p.2 < heapLen (h ++ [cellAt h r0]) := fun p hp =>
      Nat.lt_trans (hv p (List.mem_cons_of_mem _ hp)) hlen1
    have hhead : cellAt (copyCells (h ++ [cellAt h r0]) tl).1 (heapLen h)
        = cellAt h r0 := by
      rw [copyCells_preserve tl _ _ hlen1, cellAt_concat_len]
    have htail := ih (h ++ [cellAt h r0]) hv1
    simp only [copyCells, List.map_cons, hhead]
    rw [htail]
    congr 1
    apply List.map_congr_left
    intro p hp
    rw [cellAt_append (hv p (List.mem_cons_of_mem _ hp))]

theorem ref_of_lookup {g : HeapGraph α} {n : α} {r : Nat}
    (h : lookupA g.top n = some r) : r ∈ refsOf g :=
  List.mem_map_of_mem Prod.snd (UndirectedGraph.mem_of_lookupA h)

theorem removeFoldH_frame (g : HeapGraph α) (n : α) (r : Nat)
    (hr : r ∉ refsOf g) :
    ∀ (ms : List (α × β)) (hh : Heap α β),
      cellAt (ms.foldl (fun hh p =>
          match lookupA g.top p.1 with
          | none => hh
          | some rm => hh.set rm (eraseA (cellAt hh rm) n)) hh) r
        = cellAt hh r := by
  intro ms
  induction ms with
  | nil => intro hh; rfl
  | cons q tl ih =>
    intro hh
    rw [List.foldl_cons]
    cases hq : lookupA g.top q.1 with
    | none =>
      simp only [hq]
      exact ih hh
    | some rm =>
      simp only [hq]
      rw [ih _]
      exact cellAt_set_ne (fun he => hr (he ▸ ref_of_lookup hq))

theorem applyOpH_frame (op : Op α β) (h : Heap α β) (g : HeapGraph α)
    (r : Nat) (hlt : r < heapLen h) (hr : r ∉ refsOf g) :
    cellAt (applyOpH op h g).1 r = cellAt h r := by
  cases op with
  | add_node n =>
    show cellAt (add_nodeH h g n).1 r = cellAt h r
    unfold add_nodeH
    by_cases hs : (lookupA g.top n).isSome
    · rw [if_pos hs]
    · rw [if_neg hs]
      exact cellAt_append hlt
  | remove_node n =>
    show cellAt (remove_nodeH h g n).1 r = cellAt h r
    unfold remove_nodeH
    cases hn : lookupA g.top n with
    | none => rfl
    | some rn =>
      dsimp only
      exact removeFoldH_frame g n r hr (cellAt h rn) h
  | construct_edge n1 n2 e =>
    show cellAt (construct_edgeH h g n1 n2 e).1 r = cellAt h r
    unfold construct_edgeH
    cases h1 : lookupA g.top n1 with
    | none => rfl
    | some r1 =>
      cases h2 : lookupA g.top n2 with
      | none => rfl
      | some r2 =>
        dsimp only
        split
        · rfl
        split
        · rfl
        split
        · rfl
        have hne1 : r ≠ r1 := fun he => hr (he ▸ ref_of_lookup h1)
        have hne2 : r ≠ r2 := fun he => hr (he ▸ ref_of_lookup h2)
        rw [cellAt_set_ne hne2, cellAt_set_ne hne1]
  | assign_edge n1 n2 e =>
    show cellAt (assign_edgeH h g n1 n2 e).1 r = cellAt h r
    unfold assign_edgeH
    cases h1 : lookupA g.top n1 with
    | none => rfl
    | some r1 =>
      cases h2 : lookupA g.top n2 with
      | none => rfl
      | some r2 =>
        dsimp only
        split
        · rfl
        split
        · rfl
        split
        · rfl
        have hne1 : r ≠ r1 := fun he => hr (he ▸ ref_of_lookup h1)
        have hne2 : r ≠ r2 := fun he => hr (he ▸ ref_of_lookup h2)
        rw [cellAt_set_ne hne2, cellAt_set_ne hne1]
  | remove_edge n1 n2 =>
    show cellAt (remove_edgeH h g n1 n2).1 r = cellAt h r
    unfold remove_edgeH
    cases h1 : lookupA g.top n1 with
    | none => rfl
    | some r1 =>
      cases h2 : lookupA g.top n2 with
      | none => rfl
      | some r2 =>
        dsimp only
        split
        · rfl
        split
        · rfl
        split
        · rfl
        have hne1 : r ≠ r1 := fun he => hr (he ▸ ref_of_lookup h1)
        have hne2 : r ≠ r2 := fun he => hr (he ▸ ref_of_lookup h2)
        rw [cellAt_set_ne hne2, cellAt_set_ne hne1]
  | clear => rfl

theorem copyH_spec (h : Heap α β) (g : HeapGraph α)
    (hvalid : ∀ r ∈ refsOf g, r < heapLen h) :
    viewH (copyH h g).1 (copyH h g).2 = viewH h g ∧
      (copyH h g).2.count = g.count ∧
      (∀ op : Op α β,
        viewH (applyOpH op (copyH h g).1 (copyH h g).2).1 g = viewH h g) ∧
      (∀ op : Op α β,
        viewH (applyOpH op (copyH h g).1 g).1 (copyH h g).2
          = viewH (copyH h g).1 (copyH h g).2) := by
  have hval' : ∀ p ∈ g.top, p.2 < heapLen h := fun p hp =>
    hvalid p.2 (List.mem_map_of_mem Prod.snd hp)
  have hfresh : ∀ r ∈ refsOf (copyH h g).2, heapLen h ≤ r ∧
      r < heapLen (copyH h g).1 := by
    intro r hrm
    rcases List.mem_map.mp hrm with ⟨p, hp, hpr⟩
    exact hpr ▸ copyCells_refs g.top h p hp
  have hview1 : viewH (copyH h g).1 (copyH h g).2 = viewH h g := by
    unfold viewH copyH
    exact copyCells_view g.top h hval'
  refine ⟨hview1, rfl, ?_, ?_⟩
  · intro op
    unfold viewH
    apply List.map_congr_left
    intro p hp
    have hlt : p.2 < heapLen (copyH h g).1 :=
      Nat.lt_of_lt_of_le (hval' p hp) (copyCells_len g.top h)
    have hout : p.2 ∉ refsOf (copyH h g).2 := by
      intro hin
      have := (hfresh p.2 hin).1
      have := hval' p hp
      omega
    have hpre : cellAt (copyH h g).1 p.2 = cellAt h p.2 :=
      copyCells_preserve g.top h p.2 (hval' p hp)
    rw [applyOpH_frame op (copyH h g).1 (copyH h g).2 p.2 hlt hout, hpre]
  · intro op
    unfold viewH
    apply List.map_congr_left
    intro p hp
    have hlt : p.2 < heapLen (copyH h g).1 :=
      (hfresh p.2 (List.mem_map_of_mem Prod.snd hp)).2
    have hout : p.2 ∉ refsOf g := by
      intro hin
      have h1 := (hfresh p.2 (List.mem_map_of_mem Prod.snd hp)).1
      have h2 := hvalid p.2 hin
      omega
    rw [applyOpH_frame op (copyH h g).1 g p.2 hlt hout]

open UndirectedGraph

theorem inv_nonneg {g : UndirectedGraph α β} (hI : g.Inv) :
    0 ≤ g.count_edges_f := by
  have := hI.counter
  omega

theorem inv_applyOp (op : Op α β) {g : UndirectedGraph α β} (hI : g.Inv) :
    ((applyOp op g).1).Inv := by
  cases op with
  | add_node n => exact inv_add_node hI n
  | remove_node n => exact inv_remove_node hI n
  | construct_edge a b e => exact inv_construct_edge hI a b e
  | assign_edge a b e => exact inv_assign_edge hI a b e
  | remove_edge a b => exact inv_remove_edge hI a b
  | clear => exact inv_clear g

theorem reachable_inv {g : UndirectedGraph α β} (h : Reachable g) : g.Inv := by
  induction h with
  | init => exact inv_init
  | step op hR ih => exact inv_applyOp op ih

theorem applyOp_error_unchanged (op : Op α β) (g : UndirectedGraph α β)
    (e : PyErr) (h : (applyOp op g).2 = some e) : (applyOp op g).1 = g := by
  cases op with
  | add_node n =>
    simp only [applyOp] at h ⊢
    rcases add_node_cases g n with h1 | ⟨_, _, _, h2⟩
    · exact h1
    · rw [h2] at h
      cases h
  | remove_node n =>
    simp only [applyOp] at h ⊢
    rcases remove_node_cases g n with ⟨h1, _, _⟩ | ⟨nbrs, _, h2⟩
    · exact h1
    · rw [h2] at h
      cases h
  | construct_edge a b e' =>
    simp only [applyOp] at h ⊢
    rcases construct_edge_cases g a b e' with h1 | ⟨_, _, _, _, _, _, _, h2⟩
    · exact h1
    · rw [h2] at h
      cases h
  | assign_edge a b e' =>
    simp only [applyOp] at h ⊢
    rcases assign_edge_cases g a b e'
      with h1 | ⟨_, _, _, _, _, _, _, _, _, h2⟩
    · exact h1
    · rw [h2] at h
      cases h
  | remove_edge a b =>
    simp only [applyOp] at h ⊢
    rcases remove_edge_cases g a b with h1 | ⟨_, _, _, _, _, _, _, _, _, h2⟩
    · exact h1
    · rw [h2] at h
      cases h
  | clear =>
    simp only [applyOp, UndirectedGraph.clear] at h
    cases h

theorem construct_edge_no_assert {g : UndirectedGraph α β} (hI : g.Inv)
    (n1 n2 : α) (e : β) :
    (g.construct_edge n1 n2 e).2 ≠ some PyErr.assertionError := by
  unfold construct_edge
  cases h1 : lookupA g.adjacency_list n1 with
  | none => intro hc; cases hc
  | some nb1 =>
    cases h2 : lookupA g.adjacency_list n2 with
    | none => intro hc; cases hc
    | some nb2 =>
      dsimp only
      by_cases h3 : (lookupA nb1 n2).isSome
      · rw [if_pos h3]
        intro hc
        cases hc
      · rw [if_neg h3]
        have h4 : ¬(lookupA nb2 n1).isSome = true := by
          intro hs
          obtain ⟨p, hp⟩ := Option.isSome_iff_exists.mp hs
          have h5 : g.edgeLookup n2 n1 = some p := by
            unfold edgeLookup
            rw [h2]
            simpa using hp
          have h6 := hI.symm n2 n1 p h5
          unfold edgeLookup at h6
          rw [h1] at h6
          simp only [Option.some_bind] at h6
          apply h3
          simp [h6]
        rw [if_neg h4]
        by_cases h5 : n1 = n2
        · rw [if_pos h5]
          intro hc
          cases hc
        · rw [if_neg h5]
          intro hc
          cases hc

theorem assign_edge_no_assert {g : UndirectedGraph α β} (hI : g.Inv)
    (n1 n2 : α) (e : β) :
    (g.assign_edge n1 n2 e).2 ≠ some PyErr.assertionError := by
  unfold assign_edge
  cases h1 : lookupA g.adjacency_list n1 with
  | none => intro hc; cases hc
  | some nb1 =>
    cases h2 : lookupA g.adjacency_list n2 with
    | none => intro hc; cases hc
    | some nb2 =>
      dsimp only
      by_cases h3 : (lookupA nb2 n1).isNone
      · rw [if_pos h3]
        intro hc
        cases hc
      · rw [if_neg h3]
        have h4 : ¬(lookupA nb1 n2).isNone = true := by
          rw [Bool.not_eq_true, Option.isNone_eq_false_iff] at h3
          obtain ⟨p, hp⟩ := Option.isSome_iff_exists.mp h3
          have h5 : g.edgeLookup n2 n1 = some p := by
            unfold edgeLookup
            rw [h2]
            simpa using hp
          have h6 := hI.symm n2 n1 p h5
          unfold edgeLookup at h6
          rw [h1] at h6
          simp only [Option.some_bind] at h6
          simp [h6]
        rw [if_neg h4]
        by_cases h5 : n1 = n2
        · rw [if_pos h5]
          intro hc
          cases hc
        · rw [if_neg h5]
          intro hc
          cases hc

theorem remove_edge_no_assert {g : UndirectedGraph α β} (hI : g.Inv)
    (n1 n2 : α) :
    (g.remove_edge n1 n2).2 ≠ some PyErr.assertionError := by
  unfold remove_edge
  cases h1 : lookupA g.adjacency_list n1 with
  | none => intro hc; cases hc
  | some nb1 =>
    cases h2 : lookupA g.adjacency_list n2 with
    | none => intro hc; cases hc
    | some nb2 =>
      dsimp only
      by_cases h3 : (lookupA nb2 n1).isNone
      · rw [if_pos h3]
        intro hc
        cases hc
      · rw [if_neg h3]
        have h4 : ¬(lookupA nb1 n2).isNone = true := by
          rw [Bool.not_eq_true, Option.isNone_eq_false_iff] at h3
          obtain ⟨p, hp⟩ := Option.isSome_iff_exists.mp h3
          have h5 : g.edgeLookup n2 n1 = some p := by
            unfold edgeLookup
            rw [h2]
            simpa using hp
          have h6 := hI.symm n2 n1 p h5
          unfold edgeLookup at h6
          rw [h1] at h6
          simp only [Option.some_bind] at h6
          simp [h6]
        rw [if_neg h4]
        by_cases h5 : n1 = n2
        · rw [if_pos h5]
          intro hc
          cases hc
        · rw [if_neg h5]
          intro hc
          cases hc

/-! ### Concrete example graphs (used by the witnesses) -/

/-- The empty graph over `Nat` nodes and `Nat` payloads. -/
def gEmpty : UndirectedGraph Nat Nat := UndirectedGraph.init

/-- Nodes `1, 2`, no edges. -/
def gTwo : UndirectedGraph Nat Nat := ((gEmpty.add_node 1).1.add_node 2).1

/-- Nodes `1, 2, 3`, no edges. -/
def gThree : UndirectedGraph Nat Nat := (gTwo.add_node 3).1

/-- Nodes `1, 2, 3` with one edge `1 - 2` (payload `7`); node `3` is an
isolated second component. -/
def gTri : UndirectedGraph Nat Nat := (gThree.construct_edge 1 2 7).1

theorem inv_gTwo : gTwo.Inv := inv_add_node (inv_add_node inv_init 1) 2

theorem inv_gThree : gThree.Inv := inv_add_node inv_gTwo 3

theorem inv_gTri : gTri.Inv := inv_construct_edge inv_gThree 1 2 7

theorem reach_gTri : Reachable gTri :=
  Reachable.step (Op.construct_edge 1 2 7)
    (Reachable.step (Op.add_node 3)
      (Reachable.step (Op.add_node 2)
        (Reachable.step (Op.add_node 1) Reachable.init)))

/-- Heap-model counterpart of `gTri`: cells `0, 1, 2` hold the neighbor
dicts of nodes `1, 2, 3`. -/
def exHeap : Heap Nat Nat := [[(2, 7)], [(1, 7)], []]

/-- Heap-model graph object referencing `exHeap`. -/
def exHG : HeapGraph Nat := ⟨[(1, 0), (2, 1), (3, 2)], 1⟩

/-! ### The claims -/

/-- C1: every public mutating operation preserves the data-model invariant
(symmetry with identical payloads, no self-neighbor, every neighbor key a
top-level node, counter equal to half the total neighbor-map size), and the
counter stays non-negative. -/
theorem C1_ops_preserve_invariant (op : Op α β) (g : UndirectedGraph α β)
    (hI : g.Inv) :
    ((applyOp op g).1).Inv ∧ 0 ≤ ((applyOp op g).1).count_edges_f :=
  ⟨inv_applyOp op hI, inv_nonneg (inv_applyOp op hI)⟩

theorem C1_witness :
    gTwo.Inv ∧
      ((applyOp (Op.construct_edge 1 2 7) gTwo).1.Inv ∧
        0 ≤ (applyOp (Op.construct_edge 1 2 7) gTwo).1.count_edges_f) :=
  ⟨inv_gTwo, C1_ops_preserve_invariant (Op.construct_edge 1 2 7) gTwo inv_gTwo⟩

/-- C2: on a valid graph with distinct present nodes `a ≠ b` and no edge
between them, `construct_edge a b p` succeeds, makes `has_edge` true in both
directions, stores payload `p` in both directions, and increments the edge
counter by one. -/
theorem C2_construct_edge_success (g : UndirectedGraph α β) (a b : α) (p : β)
    (hI : g.Inv) (hab : a ≠ b) (ha : g.contains a = true)
    (hb : g.contains b = true) (hne : g.has_edge a b = false) :
    (g.construct_edge a b p).2 = none ∧
      (g.construct_edge a b p).1.has_edge a b = true ∧
      (g.construct_edge a b p).1.has_edge b a = true ∧
      (g.construct_edge a b p).1.edgeLookup a b = some p ∧
      (g.construct_edge a b p).1.edgeLookup b a = some p ∧
      (g.construct_edge a b p).1.count_edges_f = g.count_edges_f + 1 := by
  obtain ⟨nb1, h1⟩ := Option.isSome_iff_exists.mp (by simpa [contains] using ha)
  obtain ⟨nb2, h2⟩ := Option.isSome_iff_exists.mp (by simpa [contains] using hb)
  have h3 : lookupA nb1 b = none := by
    unfold has_edge at hne
    rw [h1] at hne
    dsimp only at hne
    rw [← Option.not_isSome_iff_eq_none]
    simp [hne]
  have h4 : lookupA nb2 a = none := by
    cases h5 : lookupA nb2 a with
    | none => rfl
    | some q =>
      exfalso
      have h6 : g.edgeLookup b a = some q := by
        unfold edgeLookup
        rw [h2]
        simpa using h5
      have h7 := hI.symm b a q h6
      unfold edgeLookup at h7
      rw [h1] at h7
      simp only [Option.some_bind] at h7
      rw [h3] at h7
      cases h7
  obtain ⟨hadj, hcnt, herr⟩ := construct_edge_adj (e := p) h1 h2 h3 h4 hab
  have hlkp := construct_edge_lookup (e := p) h1 h2 h3 h4 hab
  have hel := construct_edge_edgeLookup (e := p) h1 h2 h3 h4 hab
  refine ⟨herr, ?_, ?_, ?_, ?_, hcnt⟩
  · unfold has_edge
    have := hlkp a
    rw [if_neg hab, if_pos rfl] at this
    rw [this]
    simp
  · unfold has_edge
    have := hlkp b
    rw [if_pos rfl] at this
    rw [this]
    simp
  · rw [hel a b, if_pos (Or.inl ⟨rfl, rfl⟩)]
  · rw [hel b a, if_pos (Or.inr ⟨rfl, rfl⟩)]

theorem C2_witness :
    (gTwo.Inv ∧ (1 : Nat) ≠ 2 ∧ gTwo.contains 1 = true ∧
        gTwo.contains 2 = true ∧ gTwo.has_edge 1 2 = false) ∧
      ((gTwo.construct_edge 1 2 7).2 = none ∧
        (gTwo.construct_edge 1 2 7).1.has_edge 1 2 = true ∧
        (gTwo.construct_edge 1 2 7).1.has_edge 2 1 = true ∧
        (gTwo.construct_edge 1 2 7).1.edgeLookup 1 2 = some 7 ∧
        (gTwo.construct_edge 1 2 7).1.edgeLookup 2 1 = some 7 ∧
        (gTwo.construct_edge 1 2 7).1.count_edges_f
          = gTwo.count_edges_f + 1) :=
  ⟨⟨inv_gTwo, by decide, by decide, by decide, by decide⟩,
    C2_construct_edge_success gTwo 1 2 7 inv_gTwo (by decide) (by decide)
      (by decide) (by decide)⟩

/-- C3: on a valid graph, `remove_node n` with `n` present of degree `d`
succeeds, lowers the node count by exactly one and the edge counter by
exactly `d`, removes `n`'s own entry and removes `n` from every remaining
neighbor map; with `n` absent it raises `NodeNotExistsError` and leaves the
state unchanged. -/
theorem C3_remove_node (g : UndirectedGraph α β) (n : α) (hI : g.Inv) :
    (∀ d, g.degree n = Except.ok d →
      (g.remove_node n).2 = none ∧
        (g.remove_node n).1.count_nodes + 1 = g.count_nodes ∧
        (g.remove_node n).1.count_edges_f = g.count_edges_f - (d : Int) ∧
        lookupA (g.remove_node n).1.adjacency_list n = none ∧
        (∀ m nb, lookupA (g.remove_node n).1.adjacency_list m = some nb →
          lookupA nb n = none)) ∧
      (g.contains n = false →
        (g.remove_node n).2 = some PyErr.nodeNotExists ∧
          (g.remove_node n).1 = g) := by
  constructor
  · intro d hd
    unfold degree at hd
    cases h : lookupA g.adjacency_list n with
    | none =>
      rw [h] at hd
      cases hd
    | some nbrs =>
      rw [h] at hd
      have hdn : nbrs.length = d := by
        cases hd
        rfl
      have hnn := no_self_not_mem hI h
      obtain ⟨la_n, la_mem, la_other⟩ := remove_node_lookup hI h
      obtain ⟨hlen, hcnt, _⟩ := remove_node_keys_count hI h
      refine ⟨(remove_node_adj h hnn).2.2, hlen, ?_, la_n, ?_⟩
      · rw [hcnt, hdn]
      · intro m nb hnb
        by_cases hm : m = n
        · rw [hm, la_n] at hnb
          cases hnb
        · by_cases hmem : m ∈ keysA nbrs
          · obtain ⟨v, hva, _, hla⟩ := la_mem m hm hmem
            rw [hla] at hnb
            cases hnb
            exact lookupA_eraseA_self v n (hI.nodup_inner m v hva)
          · rw [la_other m hm hmem] at hnb
            cases hvn : lookupA nb n with
            | none => rfl
            | some q =>
              exfalso
              have h5 : g.edgeLookup m n = some q := by
                unfold edgeLookup
                rw [hnb]
                simpa using hvn
              have h6 := hI.symm m n q h5
              unfold edgeLookup at h6
              rw [h] at h6
              simp only [Option.some_bind] at h6
              exact hmem (lookupA_mem_keys h6)
  · intro habs
    have h : lookupA g.adjacency_list n = none := by
      unfold contains at habs
      rw [← Option.not_isSome_iff_eq_none]
      simp [habs]
    unfold remove_node
    rw [h]
    exact ⟨rfl, rfl⟩

theorem C3_witness :
    gTri.Inv ∧
      ((∀ d, gTri.degree 2 = Except.ok d →
        (gTri.remove_node 2).2 = none ∧
          (gTri.remove_node 2).1.count_nodes + 1 = gTri.count_nodes ∧
          (gTri.remove_node 2).1.count_edges_f
            = gTri.count_edges_f - (d : Int) ∧
          lookupA (gTri.remove_node 2).1.adjacency_list 2 = none ∧
          (∀ m nb, lookupA (gTri.remove_node 2).1.adjacency_list m = some nb →
            lookupA nb 2 = none)) ∧
      (gTri.contains 2 = false →
        (gTri.remove_node 2).2 = some PyErr.nodeNotExists ∧
          (gTri.remove_node 2).1 = gTri)) :=
  ⟨inv_gTri, C3_remove_node gTri 2 inv_gTri⟩

/-- C4: on a valid graph the edge iterator emits each undirected edge
exactly once: `count_edges()` returns exactly the number of emitted
triples, and no unordered pair is emitted in both orderings. -/
theorem C4_edge_iter_each_edge_once (g : UndirectedGraph α β) (hI : g.Inv) :
    g.count_edges = Except.ok ((g.edgeIter.length : Int)) ∧
      ∀ u v p q, (u, v, p) ∈ g.edgeIter → (v, u, q) ∈ g.edgeIter → False := by
  have hlen := edgeIter_length hI
  have hcnt := hI.counter
  have hval : g.count_edges_f = (g.edgeIter.length : Int) := by omega
  refine ⟨?_, edgeIter_no_both hI⟩
  unfold count_edges
  rw [if_pos (by omega), hval]

theorem C4_witness :
    gTri.Inv ∧
      (gTri.count_edges = Except.ok ((gTri.edgeIter.length : Int)) ∧
        ∀ u v p q, (u, v, p) ∈ gTri.edgeIter → (v, u, q) ∈ gTri.edgeIter →
          False) :=
  ⟨inv_gTri, C4_edge_iter_each_edge_once gTri inv_gTri⟩

/-- C5: on a valid graph both traversals yield every node exactly once,
across all connected components, so the output length equals
`count_nodes()`. -/
theorem C5_traversals_visit_all (g : UndirectedGraph α β) (hI : g.Inv) :
    (g.dfs_node_iter.length = g.count_nodes ∧ g.dfs_node_iter.Nodup ∧
        ∀ x, x ∈ g.dfs_node_iter ↔ g.contains x = true) ∧
      (g.bfs_node_iter.length = g.count_nodes ∧ g.bfs_node_iter.Nodup ∧
        ∀ x, x ∈ g.bfs_node_iter ↔ g.contains x = true) := by
  obtain ⟨hnd1, hm1⟩ := traversal_complete hI true
  obtain ⟨hnd2, hm2⟩ := traversal_complete hI false
  refine ⟨⟨traversal_length hI true, hnd1, ?_⟩,
    ⟨traversal_length hI false, hnd2, ?_⟩⟩
  · intro x
    rw [show g.dfs_node_iter
        = searchOuter true g.adjacency_list g.adjacency_list [] from rfl,
      hm1 x]
    unfold contains
    rw [lookupA_isSome]
  · intro x
    rw [show g.bfs_node_iter
        = searchOuter false g.adjacency_list g.adjacency_list [] from rfl,
      hm2 x]
    unfold contains
    rw [lookupA_isSome]

theorem C5_witness :
    gTri.Inv ∧
      ((gTri.dfs_node_iter.length = gTri.count_nodes ∧
          gTri.dfs_node_iter.Nodup ∧
          ∀ x, x ∈ gTri.dfs_node_iter ↔ gTri.contains x = true) ∧
        (gTri.bfs_node_iter.length = gTri.count_nodes ∧
          gTri.bfs_node_iter.Nodup ∧
          ∀ x, x ∈ gTri.bfs_node_iter ↔ gTri.contains x = true)) :=
  ⟨inv_gTri, C5_traversals_visit_all gTri inv_gTri⟩

/-- C6: whenever a public operation raises one of the five exported
exceptions, the resulting state (adjacency map and counter) is exactly the
state before the call: every check happens before any mutation. -/
theorem C6_errors_leave_state_unchanged (op : Op α β)
    (g : UndirectedGraph α β) (e : PyErr)
    (h : (applyOp op g).2 = some e) (he : e ≠ PyErr.assertionError) :
    (applyOp op g).1 = g :=
  applyOp_error_unchanged op g e h

theorem C6_witness :
    ((applyOp (Op.remove_node 9) gTri).2 = some PyErr.nodeNotExists ∧
        PyErr.nodeNotExists ≠ PyErr.assertionError) ∧
      (applyOp (Op.remove_node 9) gTri).1 = gTri :=
  ⟨⟨by decide, by decide⟩,
    C6_errors_leave_state_unchanged (Op.remove_node 9) gTri
      PyErr.nodeNotExists (by decide) (by decide)⟩

/-- C7: on a valid graph containing `n`, `construct_edge n n p` raises
`InvalidEdgeError` and leaves the state (hence `count_edges()`) unchanged. -/
theorem C7_self_loop_rejected (g : UndirectedGraph α β) (n : α) (p : β)
    (hI : g.Inv) (hn : g.contains n = true) :
    (g.construct_edge n n p).2 = some PyErr.invalidEdge ∧
      (g.construct_edge n n p).1 = g ∧
      (g.construct_edge n n p).1.count_edges_f = g.count_edges_f := by
  obtain ⟨nb, h1⟩ := Option.isSome_iff_exists.mp (by simpa [contains] using hn)
  have h2 : lookupA nb n = none := by
    have h3 := hI.no_self n
    unfold edgeLookup at h3
    rw [h1] at h3
    simpa using h3
  have hmain : g.construct_edge n n p = (g, some PyErr.invalidEdge) := by
    unfold construct_edge
    rw [h1]
    dsimp only
    rw [if_neg (by simp [h2]), if_neg (by simp [h2]), if_pos rfl]
  rw [hmain]
  exact ⟨rfl, rfl, rfl⟩

theorem C7_witness :
    (gTri.Inv ∧ gTri.contains 1 = true) ∧
      ((gTri.construct_edge 1 1 5).2 = some PyErr.invalidEdge ∧
        (gTri.construct_edge 1 1 5).1 = gTri ∧
        (gTri.construct_edge 1 1 5).1.count_edges_f = gTri.count_edges_f) :=
  ⟨⟨inv_gTri, by decide⟩,
    C7_self_loop_rejected gTri 1 5 inv_gTri (by decide)⟩

/-- C8 counterexample: on a graph containing node `1` (with no self-loop,
as in every reachable state), `assign_edge 1 1 p` raises
`EdgeNotExistsError`, not `InvalidEdgeError`: the `EdgeNotExists` check
precedes the `a == b` check in the source. -/
theorem C8_counterexample :
    (gTri.assign_edge 1 1 5).2 = some PyErr.edgeNotExists ∧
      (gTri.assign_edge 1 1 5).2 ≠ some PyErr.invalidEdge := by
  decide

/-- C8 (amended): `assign_edge a b p` raises `NodeNotExistsError` if either
endpoint is absent; otherwise raises `EdgeNotExistsError` if no edge exists
between them — including when `a = b`, since a valid graph has no
self-loops, so the `InvalidEdgeError` branch for `a = b` is unreachable;
on success (which implies `a ≠ b`) it overwrites the payload symmetrically
in both neighbor maps and leaves `count_edges()` unchanged. -/
theorem C8_assign_edge_behavior (g : UndirectedGraph α β) (a b : α) (p : β)
    (hI : g.Inv) :
    ((g.contains a = false ∨ g.contains b = false) →
      (g.assign_edge a b p).2 = some PyErr.nodeNotExists) ∧
      (g.contains a = true → g.contains b = true → g.has_edge a b = false →
        (g.assign_edge a b p).2 = some PyErr.edgeNotExists) ∧
      (g.has_edge a b = true →
        (g.assign_edge a b p).2 = none ∧
          (g.assign_edge a b p).1.edgeLookup a b = some p ∧
          (g.assign_edge a b p).1.edgeLookup b a = some p ∧
          (g.assign_edge a b p).1.count_edges_f = g.count_edges_f) := by
  refine ⟨?_, ?_, ?_⟩
  · intro habs
    unfold assign_edge
    cases h1 : lookupA g.adjacency_list a with
    | none => rfl
    | some nb1 =>
      cases h2 : lookupA g.adjacency_list b with
      | none => rfl
      | some nb2 =>
        exfalso
        rcases habs with h3 | h3 <;> unfold contains at h3
        · rw [h1] at h3
          cases h3
        · rw [h2] at h3
          cases h3
  · intro ha hb hne
    obtain ⟨nb1, h1⟩ :=
      Option.isSome_iff_exists.mp (by simpa [contains] using ha)
    obtain ⟨nb2, h2⟩ :=
      Option.isSome_iff_exists.mp (by simpa [contains] using hb)
    have h3 : lookupA nb1 b = none := by
      unfold has_edge at hne
      rw [h1] at hne
      dsimp only at hne
      rw [← Option.not_isSome_iff_eq_none]
      simp [hne]
    have h4 : lookupA nb2 a = none := by
      cases h5 : lookupA nb2 a with
      | none => rfl
      | some q =>
        exfalso
        have h6 : g.edgeLookup b a = some q := by
          unfold edgeLookup
          rw [h2]
          simpa using h5
        have h7 := hI.symm b a q h6
        unfold edgeLookup at h7
        rw [h1] at h7
        simp only [Option.some_bind] at h7
        rw [h3] at h7
        cases h7
    unfold assign_edge
    rw [h1, h2]
    dsimp only
    rw [if_pos (by simp [h4])]
  · intro he
    obtain ⟨nb1, h1, p2, h4⟩ : ∃ nb1, lookupA g.adjacency_list a = some nb1
        ∧ ∃ p2, lookupA nb1 b = some p2 := by
      unfold has_edge at he
      cases h1 : lookupA g.adjacency_list a with
      | none =>
        rw [h1] at he
        cases he
      | some nb1 =>
        rw [h1] at he
        dsimp only at he
        exact ⟨nb1, rfl, Option.isSome_iff_exists.mp he⟩
    have hedge : g.edgeLookup a b = some p2 := by
      unfold edgeLookup
      rw [h1]
      simpa using h4
    have hedge' := hI.symm a b p2 hedge
    have hab : a ≠ b := by
      rintro rfl
      rw [hI.no_self a] at hedge
      cases hedge
    obtain ⟨nb2, h2, h3⟩ : ∃ nb2, lookupA g.adjacency_list b = some nb2
        ∧ lookupA nb2 a = some p2 := by
      unfold edgeLookup at hedge'
      rcases Option.bind_eq_some.mp hedge' with ⟨nb2, h2, h3⟩
      exact ⟨nb2, h2, h3⟩
    obtain ⟨hadj, hcnt, herr⟩ := assign_edge_adj (e := p) h1 h2 h3 h4 hab
    have hel := assign_edge_edgeLookup (e := p) h1 h2 h3 h4 hab
    refine ⟨herr, ?_, ?_, hcnt⟩
    · rw [hel a b, if_pos (Or.inl ⟨rfl, rfl⟩)]
    · rw [hel b a, if_pos (Or.inr ⟨rfl, rfl⟩)]

theorem C8_witness :
    gTri.Inv ∧
      (((gTri.contains 1 = false ∨ gTri.contains 2 = false) →
        (gTri.assign_edge 1 2 9).2 = some PyErr.nodeNotExists) ∧
      (gTri.contains 1 = true → gTri.contains 2 = true →
        gTri.has_edge 1 2 = false →
        (gTri.assign_edge 1 2 9).2 = some PyErr.edgeNotExists) ∧
      (gTri.has_edge 1 2 = true →
        (gTri.assign_edge 1 2 9).2 = none ∧
          (gTri.assign_edge 1 2 9).1.edgeLookup 1 2 = some 9 ∧
          (gTri.assign_edge 1 2 9).1.edgeLookup 2 1 = some 9 ∧
          (gTri.assign_edge 1 2 9).1.count_edges_f = gTri.count_edges_f)) :=
  ⟨inv_gTri, C8_assign_edge_behavior gTri 1 2 9 inv_gTri⟩

/-- C9: `copy` (in the heap model of object references) produces a graph
whose adjacency structure and edge counter equal the original's, holding
only freshly allocated cells, so any subsequent public mutation of the copy
leaves the original's adjacency structure unchanged, and vice versa. -/
theorem C9_copy_independent (h : Heap α β) (g : HeapGraph α)
    (hvalid : ∀ r ∈ refsOf g, r < heapLen h) :
    viewH (copyH h g).1 (copyH h g).2 = viewH h g ∧
      (copyH h g).2.count = g.count ∧
      (∀ op : Op α β,
        viewH (applyOpH op (copyH h g).1 (copyH h g).2).1 g = viewH h g) ∧
      (∀ op : Op α β,
        viewH (applyOpH op (copyH h g).1 g).1 (copyH h g).2
          = viewH (copyH h g).1 (copyH h g).2) :=
  copyH_spec h g hvalid

theorem C9_witness :
    (∀ r ∈ refsOf exHG, r < heapLen exHeap) ∧
      (viewH (copyH exHeap exHG).1 (copyH exHeap exHG).2
          = viewH exHeap exHG ∧
        (copyH exHeap exHG).2.count = exHG.count ∧
        (∀ op : Op Nat Nat,
          viewH (applyOpH op (copyH exHeap exHG).1 (copyH exHeap exHG).2).1
            exHG = viewH exHeap exHG) ∧
        (∀ op : Op Nat Nat,
          viewH (applyOpH op (copyH exHeap exHG).1 exHG).1
              (copyH exHeap exHG).2
            = viewH (copyH exHeap exHG).1 (copyH exHeap exHG).2)) :=
  ⟨by decide, C9_copy_independent exHeap exHG (by decide)⟩

/-- C10: in every state reachable through the public operations, the
internal `assert` statements of `construct_edge`, `assign_edge`,
`remove_edge` and `count_edges` cannot fail. -/
theorem C10_asserts_never_fail (g : UndirectedGraph α β)
    (hR : Reachable g) :
    (∀ n1 n2 e, (g.construct_edge n1 n2 e).2 ≠ some PyErr.assertionError) ∧
      (∀ n1 n2 e, (g.assign_edge n1 n2 e).2 ≠ some PyErr.assertionError) ∧
      (∀ n1 n2, (g.remove_edge n1 n2).2 ≠ some PyErr.assertionError) ∧
      g.count_edges = Except.ok g.count_edges_f := by
  have hI := reachable_inv hR
  refine ⟨fun n1 n2 e => construct_edge_no_assert hI n1 n2 e,
    fun n1 n2 e => assign_edge_no_assert hI n1 n2 e,
    fun n1 n2 => remove_edge_no_assert hI n1 n2, ?_⟩
  unfold count_edges
  rw [if_pos (inv_nonneg hI)]

theorem C10_witness :
    Reachable gTri ∧
      ((∀ n1 n2 e,
          (gTri.construct_edge n1 n2 e).2 ≠ some PyErr.assertionError) ∧
        (∀ n1 n2 e,
          (gTri.assign_edge n1 n2 e).2 ≠ some PyErr.assertionError) ∧
        (∀ n1 n2, (gTri.remove_edge n1 n2).2 ≠ some PyErr.assertionError) ∧
        gTri.count_edges = Except.ok gTri.count_edges_f) :=
  ⟨reach_gTri, C10_asserts_never_fail gTri reach_gTri⟩

end UGraphPy
